import Mathlib

/-!
# prefixtrie: a compressed prefix tree

A shallow embedding of `prefixtrie.go` (package `prefixtrie`): the node type
`TrieNode`, the constructor `NewTrieRoot`, and the three operations `Put`,
`Lookup` and `Traverse`, followed by theorems about them.

Go pointers to nodes are modelled by values: a trie is a finite tree that owns
its children, so an in-place mutation of the receiver becomes a function that
returns the updated receiver.  A node inside a trie is identified by its
*route*, the list of child positions leading from the root to it.
-/

namespace Prefixtrie

/-! ## The ordered child mapping -/

/-- Modelled from the spec: the ordered key-to-child mapping of package
`arraymap`, an external collaborator whose sources are not part of this
repository.  It is a sequence of (key, value) entries in insertion order. -/
abbrev ArrayMap (K V : Type) := List (K × V)

namespace ArrayMap

variable {K V : Type} [DecidableEq K]

/-- Modelled from the spec: `arraymap.New`, the empty mapping. -/
def New : ArrayMap K V := []

/-- Modelled from the spec: `get(key) -> Option<ChildRef>`, the point lookup. -/
def Get : ArrayMap K V → K → Option V
  | [], _ => none
  | (k', v) :: es, k => if k' = k then some v else Get es k

/-- Modelled from the spec: `put(key, child)`, which overwrites the value on a
duplicate key (the entry keeps its place) and otherwise adds the entry last in
iteration order. -/
def Put : ArrayMap K V → K → V → ArrayMap K V
  | [], k, v => [(k, v)]
  | (k', v') :: es, k, v => if k' = k then (k', v) :: es else (k', v') :: Put es k v

/-- Modelled from the spec: `len() -> integer`, the number of entries. -/
def Len (m : ArrayMap K V) : Nat := m.length

/-- Modelled from the spec: the field `Value`, the stored values in iteration
(insertion) order. -/
def Value (m : ArrayMap K V) : List V := m.map Prod.snd

end ArrayMap

/-! ## The node type -/

/-- The error values of the package: `ErrInvalidNode`. -/
inductive Error where
  | ErrInvalidNode
  deriving DecidableEq, Repr

/-- The struct `TrieNode[K, P]`: fields `Prefix`, `Children` (a pointer to the
child mapping, `none` for the nil pointer; the entry list is an
`ArrayMap K (TrieNode K P)`), `Payload` and `PayloadSet`. -/
inductive TrieNode (K P : Type) where
  | mk (Prefix : List K) (Children : Option (List (K × TrieNode K P)))
      (Payload : P) (PayloadSet : Bool)

namespace TrieNode

variable {K P : Type}

/-- Field `Prefix`. -/
def Prefix : TrieNode K P → List K
  | mk pre _ _ _ => pre

/-- Field `Children`. -/
def Children : TrieNode K P → Option (ArrayMap K (TrieNode K P))
  | mk _ ch _ _ => ch

/-- Field `Payload`. -/
def Payload : TrieNode K P → P
  | mk _ _ pl _ => pl

/-- Field `PayloadSet`. -/
def PayloadSet : TrieNode K P → Bool
  | mk _ _ _ ps => ps

end TrieNode

open TrieNode

section Operations

variable {K P : Type} [DecidableEq K] [Inhabited P]

/-- The function `NewTrieRoot`: `&TrieNode[K, P]{}`, every field at its zero
value. -/
def NewTrieRoot : TrieNode K P := TrieNode.mk [] none default false

/-- The loop that opens `Put` and `Lookup`:
`l := 0; for l < len(tr.Prefix) && l < len(path) && tr.Prefix[l] == path[l] { l++ }`,
as a function of `tr.Prefix` and `path` giving the final `l`. -/
def commonLen : List K → List K → Nat
  | a :: as, b :: bs => if a = b then commonLen as bs + 1 else 0
  | _, _ => 0

theorem commonLen_le_left (pre path : List K) : commonLen pre path ≤ pre.length := by
  induction pre generalizing path with
  | nil => simp [commonLen]
  | cons a as ih =>
    cases path with
    | nil => simp [commonLen]
    | cons b bs =>
      have := ih bs
      by_cases h : a = b <;> simp [commonLen, h]
      omega

theorem commonLen_le_right (pre path : List K) : commonLen pre path ≤ path.length := by
  induction pre generalizing path with
  | nil => simp [commonLen]
  | cons a as ih =>
    cases path with
    | nil => simp [commonLen]
    | cons b bs =>
      have := ih bs
      by_cases h : a = b <;> simp [commonLen, h]
      omega

theorem drop_length_pos {α : Type} (xs : List α) (l : Nat) (h : l < xs.length) :
    0 < (xs.drop l).length := by
  simp only [List.length_drop]; omega

mutual
/-- The method `Put`.  The result is the receiver after the call together with
the returned `err` (`none` for nil).  The call on a child found by
`tr.Children.Get(path[0])` is `putChild`, which updates that child in its place
in the mapping.  When `tr.Children` is nil the mapping made by `arraymap.New`
has no entry, so `Get` fails and the new node is added to it.  The theorem
`Put_below` states this branch with `Get` as the source does. -/
def Put : TrieNode K P → List K → P → TrieNode K P × Option Error
  | TrieNode.mk pre ch pl ps, path, payload =>
    let l := commonLen pre path
    if l = pre.length then
      match path.drop l with
      | [] => (TrieNode.mk pre ch payload true, none)
      | k :: rest =>
        match ch with
        | none =>
          (TrieNode.mk pre
            (some (ArrayMap.Put ArrayMap.New k (TrieNode.mk (k :: rest) none payload true)))
            pl ps, none)
        | some m =>
          match putChild m k (k :: rest) payload with
          | some (m', err) => (TrieNode.mk pre (some m') pl ps, err)
          | none =>
            (TrieNode.mk pre
              (some (ArrayMap.Put m k (TrieNode.mk (k :: rest) none payload true)))
              pl ps, none)
    else if h : l < pre.length then
      have h0 : 0 < (pre.drop l).length := drop_length_pos pre l h
      let node1 : TrieNode K P := TrieNode.mk (pre.drop l) ch pl ps
      match path.drop l with
      | [] =>
        (TrieNode.mk (pre.take l)
          (some (ArrayMap.Put ArrayMap.New (pre.drop l)[0] node1)) payload true, none)
      | k :: rest =>
        let node2 : TrieNode K P := TrieNode.mk (k :: rest) none payload true
        (TrieNode.mk (pre.take l)
          (some (ArrayMap.Put (ArrayMap.Put ArrayMap.New (pre.drop l)[0] node1) k node2))
          default false, none)
    else (TrieNode.mk pre ch pl ps, none)
/-- The steps `child, ok := tr.Children.Get(path[0]); if ok { return child.Put(path, payload) }`
of `Put`: `none` when the mapping has no entry for the key (`ok` false), else
the mapping with that child updated in place and the error the child returned. -/
def putChild : ArrayMap K (TrieNode K P) → K → List K → P →
    Option (ArrayMap K (TrieNode K P) × Option Error)
  | [], _, _, _ => none
  | (k', c) :: es, k, path, payload =>
    if k' = k then some ((k', (Put c path payload).1) :: es, (Put c path payload).2)
    else
      match putChild es k path payload with
      | some (es', err) => some ((k', c) :: es', err)
      | none => none
end

mutual
/-- The method `Lookup`; `none` is the nil result. -/
def Lookup : TrieNode K P → List K → Option (TrieNode K P)
  | TrieNode.mk pre ch pl ps, path =>
    let l := commonLen pre path
    if l < pre.length then none
    else if h : path.length = l then
      if !ps then none else some (TrieNode.mk pre ch pl ps)
    else
      match ch with
      | none => none
      | some m =>
        have h0 : 0 < (path.drop l).length :=
          drop_length_pos path l (by have := commonLen_le_right pre path; omega)
        lookupChild m (path.drop l)[0] (path.drop l)
/-- The steps `c, ok := tr.Children.Get(path[0]); if !ok { return nil }; return c.Lookup(path)`
of `Lookup`. -/
def lookupChild : ArrayMap K (TrieNode K P) → K → List K → Option (TrieNode K P)
  | [], _, _ => none
  | (k', c) :: es, k, path => if k' = k then Lookup c path else lookupChild es k path
end

/-- One invocation of the callback of `Traverse`: its two arguments
`prefix [][]K` and `path []*TrieNode[K, P]`. -/
abbrev Call (K P : Type) := List (List K) × List (TrieNode K P)

mutual
/-- The method `traverse`: the callback invocations it makes, in call order. -/
def traverse : TrieNode K P → List (List K) → List (TrieNode K P) → List (Call K P)
  | TrieNode.mk pre ch pl ps, pfx, path =>
    let path := path ++ [TrieNode.mk pre ch pl ps]
    let calls : List (Call K P) := if ps then [(pfx, path)] else []
    match ch with
    | none => calls
    | some m =>
      if ArrayMap.Len m ≠ 0 then calls ++ traverseChildren m (pfx ++ [pre]) path
      else calls
/-- The loop `for _, c := range tr.Children.Value { c.traverse(prefix, path, callback) }`. -/
def traverseChildren : ArrayMap K (TrieNode K P) → List (List K) → List (TrieNode K P) →
    List (Call K P)
  | [], _, _ => []
  | (_, c) :: es, pfx, path => traverse c pfx path ++ traverseChildren es pfx path
end

/-- The method `Traverse`: `traverse` started with empty `prefix` and `path`. -/
def Traverse (tr : TrieNode K P) : List (Call K P) := traverse tr [] []

end Operations

/-! ## Facts about the child mapping -/

namespace ArrayMap

variable {K V : Type} [DecidableEq K]

/-- The in-place update of the value stored under a key: what a mutation made
through the pointer returned by `Get` does to the mapping.  Without an entry for
the key the mapping is unchanged. -/
def update : ArrayMap K V → K → V → ArrayMap K V
  | [], _, _ => []
  | (k', v') :: es, k, v => if k' = k then (k', v) :: es else (k', v') :: update es k v

theorem Get_New (k : K) : Get (New : ArrayMap K V) k = none := rfl

theorem Put_of_Get_none (m : ArrayMap K V) (k : K) (v : V) (h : Get m k = none) :
    Put m k v = m ++ [(k, v)] := by
  induction m with
  | nil => rfl
  | cons e es ih =>
    obtain ⟨k', v'⟩ := e
    by_cases hk : k' = k
    · simp [Get, hk] at h
    · simp only [Get, hk, if_false] at h
      simp [Put, hk, ih h]

theorem Get_append_single (m : ArrayMap K V) (k k' : K) (v : V) :
    Get (m ++ [(k, v)]) k' = match Get m k' with
      | some c => some c
      | none => if k = k' then some v else none := by
  induction m with
  | nil => simp [Get]
  | cons e es ih =>
    obtain ⟨k₀, v₀⟩ := e
    by_cases hk : k₀ = k'
    · simp [Get, hk]
    · simp [Get, hk, ih]

theorem Get_update (m : ArrayMap K V) (k k' : K) (v : V) :
    Get (update m k v) k' =
      if k = k' then (match Get m k with | some _ => some v | none => none) else Get m k' := by
  induction m with
  | nil => simp [Get, update]
  | cons e es ih =>
    obtain ⟨k₀, v₀⟩ := e
    by_cases hk : k₀ = k
    · subst hk
      by_cases hk' : k₀ = k' <;> simp [Get, update, hk']
    · by_cases hk' : k₀ = k'
      · subst hk'
        have hk2 : ¬ k = k₀ := fun h => hk h.symm
        simp [Get, update, hk, hk2]
      · simp [Get, update, hk, hk', ih]

theorem Get_mem (m : ArrayMap K V) (k : K) (c : V) (h : Get m k = some c) : (k, c) ∈ m := by
  induction m with
  | nil => simp [Get] at h
  | cons e es ih =>
    obtain ⟨k₀, v₀⟩ := e
    by_cases hk : k₀ = k
    · simp only [Get, hk, if_true, Option.some.injEq] at h
      simp [hk, h]
    · simp only [Get, hk, if_false] at h
      exact List.mem_cons_of_mem _ (ih h)

end ArrayMap

section Bridge

variable {K P : Type}

/-- An induction principle for tries: a property holds of every node as soon as
it holds of a node whenever it holds of all its children. -/
theorem TrieNode.induct {motive : TrieNode K P → Prop}
    (step : ∀ pre ch pl ps,
      (∀ m, ch = some m → ∀ e ∈ m, motive e.2) → motive (TrieNode.mk pre ch pl ps)) :
    ∀ t, motive t := by
  intro t
  refine TrieNode.rec
    (motive_1 := motive)
    (motive_2 := fun o => ∀ m, o = some m → ∀ e ∈ m, motive e.2)
    (motive_3 := fun m => ∀ e ∈ m, motive e.2)
    (motive_4 := fun e => motive e.2)
    ?_ ?_ ?_ ?_ ?_ ?_ t
  · intro pre ch pl ps ih
    exact step pre ch pl ps ih
  · intro m hm; cases hm
  · intro m ih m' hm'
    cases hm'
    exact ih
  · intro e he; cases he
  · intro hd tl ihd itl e he
    rcases List.mem_cons.1 he with rfl | h
    · exact ihd
    · exact itl e h
  · intro k t ih
    exact ih

theorem lookupChild_eq [DecidableEq K] (m : ArrayMap K (TrieNode K P)) (k : K) (path : List K) :
    lookupChild m k path = match ArrayMap.Get m k with
      | some c => Lookup c path
      | none => none := by
  induction m with
  | nil => simp [lookupChild, ArrayMap.Get]
  | cons e es ih =>
    obtain ⟨k', c⟩ := e
    by_cases hk : k' = k <;> simp [lookupChild, ArrayMap.Get, hk, ih]

theorem putChild_eq [DecidableEq K] [Inhabited P] (m : ArrayMap K (TrieNode K P)) (k : K)
    (path : List K) (v : P) :
    putChild m k path v = match ArrayMap.Get m k with
      | some c => some (ArrayMap.update m k (Put c path v).1, (Put c path v).2)
      | none => none := by
  induction m with
  | nil => simp [putChild, ArrayMap.Get]
  | cons e es ih =>
    obtain ⟨k', c⟩ := e
    by_cases hk : k' = k
    · simp [putChild, ArrayMap.Get, ArrayMap.update, hk]
    · simp only [putChild, ArrayMap.Get, ArrayMap.update, hk, if_false, ih]
      cases ArrayMap.Get es k <;> rfl

theorem traverseChildren_eq (m : ArrayMap K (TrieNode K P)) (pfx : List (List K))
    (path : List (TrieNode K P)) :
    traverseChildren m pfx path = (ArrayMap.Value m).flatMap (fun c => traverse c pfx path) := by
  induction m with
  | nil => simp [traverseChildren, ArrayMap.Value]
  | cons e es ih =>
    obtain ⟨k', c⟩ := e
    simp [traverseChildren, ArrayMap.Value, ih]

end Bridge

/-! ## The common leading run -/

section CommonLen

variable {K : Type} [DecidableEq K]

theorem commonLen_nil_left (path : List K) : commonLen [] path = 0 := by
  cases path <;> rfl

theorem commonLen_nil_right (pre : List K) : commonLen pre [] = 0 := by
  cases pre <;> rfl

theorem commonLen_append (cm xs ys : List K) :
    commonLen (cm ++ xs) (cm ++ ys) = cm.length + commonLen xs ys := by
  induction cm with
  | nil => simp
  | cons a as ih => simp [commonLen, ih]; omega

theorem commonLen_cons_ne (a b : K) (xs ys : List K) (h : a ≠ b) :
    commonLen (a :: xs) (b :: ys) = 0 := by
  simp [commonLen, h]

/-- The three ways a node's `Prefix` and a path can relate: the whole `Prefix`
leads the path; the path ends inside `Prefix`; or they part at an element. -/
theorem prefix_cases (pre path : List K) :
    (∃ rest, path = pre ++ rest) ∨
    (∃ a pre', pre = path ++ a :: pre') ∨
    (∃ cm a pre' b rest, pre = cm ++ a :: pre' ∧ path = cm ++ b :: rest ∧ a ≠ b) := by
  induction pre generalizing path with
  | nil => exact Or.inl ⟨path, rfl⟩
  | cons x xs ih =>
    cases path with
    | nil => exact Or.inr (Or.inl ⟨x, xs, rfl⟩)
    | cons y ys =>
      by_cases hxy : x = y
      · subst hxy
        rcases ih ys with ⟨rest, h⟩ | ⟨a, pre', h⟩ | ⟨cm, a, pre', b, rest, h1, h2, h3⟩
        · exact Or.inl ⟨rest, by simp [h]⟩
        · exact Or.inr (Or.inl ⟨a, pre', by simp [h]⟩)
        · exact Or.inr (Or.inr ⟨x :: cm, a, pre', b, rest, by simp [h1], by simp [h2], h3⟩)
      · exact Or.inr (Or.inr ⟨[], x, xs, y, ys, rfl, rfl, hxy⟩)

theorem commonLen_whole (pre rest : List K) : commonLen pre (pre ++ rest) = pre.length := by
  have := commonLen_append pre [] rest
  simpa [commonLen_nil_left] using this

theorem commonLen_inside (path : List K) (a : K) (pre' : List K) :
    commonLen (path ++ a :: pre') path = path.length := by
  have := commonLen_append path (a :: pre') []
  simpa [commonLen_nil_right] using this

theorem commonLen_part (cm : List K) (a b : K) (pre' rest : List K) (h : a ≠ b) :
    commonLen (cm ++ a :: pre') (cm ++ b :: rest) = cm.length := by
  simp [commonLen_append, commonLen_cons_ne a b pre' rest h]

end CommonLen

/-! ## The operations, case by case -/

section Cases

variable {K P : Type} [DecidableEq K]

/-- The result of `Lookup` with a path that ends exactly at the node. -/
theorem Lookup_exact (pre : List K) (ch : Option (ArrayMap K (TrieNode K P))) (pl : P)
    (ps : Bool) :
    Lookup (TrieNode.mk pre ch pl ps) pre =
      if ps then some (TrieNode.mk pre ch pl ps) else none := by
  have h := commonLen_whole pre ([] : List K)
  simp only [List.append_nil] at h
  rw [Lookup]
  cases ps <;> simp [h]

/-- The result of `Lookup` with a path that goes on after the node's `Prefix`. -/
theorem Lookup_below (pre : List K) (ch : Option (ArrayMap K (TrieNode K P))) (pl : P)
    (ps : Bool) (k : K) (rest : List K) :
    Lookup (TrieNode.mk pre ch pl ps) (pre ++ k :: rest) =
      match ch with
      | none => none
      | some m =>
        match ArrayMap.Get m k with
        | some c => Lookup c (k :: rest)
        | none => none := by
  have h := commonLen_whole pre (k :: rest)
  rw [Lookup]
  cases ch with
  | none => simp [h]
  | some m => simp [h, lookupChild_eq]

/-- The result of `Lookup` with a path that ends inside the node's `Prefix`. -/
theorem Lookup_inside (path : List K) (a : K) (pre' : List K)
    (ch : Option (ArrayMap K (TrieNode K P))) (pl : P) (ps : Bool) :
    Lookup (TrieNode.mk (path ++ a :: pre') ch pl ps) path = none := by
  have h := commonLen_inside path a pre'
  rw [Lookup]
  simp [h]

/-- The result of `Lookup` with a path that parts from the node's `Prefix`. -/
theorem Lookup_part (cm : List K) (a b : K) (pre' rest : List K) (hab : a ≠ b)
    (ch : Option (ArrayMap K (TrieNode K P))) (pl : P) (ps : Bool) :
    Lookup (TrieNode.mk (cm ++ a :: pre') ch pl ps) (cm ++ b :: rest) = none := by
  have h := commonLen_part cm a b pre' rest hab
  rw [Lookup]
  simp [h]

variable [Inhabited P]

/-- The leaf that `Put` creates for the rest of a path. -/
def newLeaf (path : List K) (payload : P) : TrieNode K P :=
  TrieNode.mk path none payload true

/-- The result of `Put` with a path that ends exactly at the node: the payload is
overwritten. -/
theorem Put_exact (pre : List K) (ch : Option (ArrayMap K (TrieNode K P))) (pl : P)
    (ps : Bool) (v : P) :
    Put (TrieNode.mk pre ch pl ps) pre v = (TrieNode.mk pre ch v true, none) := by
  have h := commonLen_whole pre ([] : List K)
  simp only [List.append_nil] at h
  rw [Put]
  simp [h]

/-- The result of `Put` with a path that goes on after the node's `Prefix`:
descend into the child keyed by the next element, or add a leaf. -/
theorem Put_below (pre : List K) (ch : Option (ArrayMap K (TrieNode K P))) (pl : P)
    (ps : Bool) (k : K) (rest : List K) (v : P) :
    Put (TrieNode.mk pre ch pl ps) (pre ++ k :: rest) v =
      match ArrayMap.Get (ch.getD ArrayMap.New) k with
      | some c =>
        (TrieNode.mk pre
          (some (ArrayMap.update (ch.getD ArrayMap.New) k (Put c (k :: rest) v).1)) pl ps,
          (Put c (k :: rest) v).2)
      | none =>
        (TrieNode.mk pre
          (some (ArrayMap.Put (ch.getD ArrayMap.New) k (newLeaf (k :: rest) v))) pl ps,
          none) := by
  have h := commonLen_whole pre (k :: rest)
  rw [Put]
  cases ch with
  | none => simp [h, ArrayMap.Get_New, newLeaf]
  | some m =>
    simp only [h, if_true, List.drop_left, Option.getD_some, putChild_eq, newLeaf]
    cases ArrayMap.Get m k <;> rfl

/-- The result of `Put` with a path that ends inside the node's `Prefix`: the node is split
and keeps the path as its `Prefix`, with the new payload. -/
theorem Put_inside (path : List K) (a : K) (pre' : List K)
    (ch : Option (ArrayMap K (TrieNode K P))) (pl : P) (ps : Bool) (v : P) :
    Put (TrieNode.mk (path ++ a :: pre') ch pl ps) path v =
      (TrieNode.mk path
        (some (ArrayMap.Put ArrayMap.New a (TrieNode.mk (a :: pre') ch pl ps))) v true,
        none) := by
  have h := commonLen_inside path a pre'
  rw [Put]
  simp [h]

/-- The result of `Put` with a path that parts from the node's `Prefix`: the node is split
into a branch with two children. -/
theorem Put_part (cm : List K) (a b : K) (pre' rest : List K) (hab : a ≠ b)
    (ch : Option (ArrayMap K (TrieNode K P))) (pl : P) (ps : Bool) (v : P) :
    Put (TrieNode.mk (cm ++ a :: pre') ch pl ps) (cm ++ b :: rest) v =
      (TrieNode.mk cm
        (some (ArrayMap.Put
          (ArrayMap.Put ArrayMap.New a (TrieNode.mk (a :: pre') ch pl ps))
          b (newLeaf (b :: rest) v)))
        default false, none) := by
  have h := commonLen_part cm a b pre' rest hab
  rw [Put]
  simp [h, newLeaf]

end Cases

/-! ## Lookup as a function of the stored payloads -/

section Strip

variable {K : Type} [DecidableEq K]

/-- The rest of a path once a leading run `pre` is removed, `none` when the path
does not start with `pre`. -/
def stripPre : List K → List K → Option (List K)
  | [], q => some q
  | _ :: _, [] => none
  | a :: as, b :: bs => if a = b then stripPre as bs else none

theorem stripPre_eq_some (pre p q : List K) : stripPre pre p = some q ↔ p = pre ++ q := by
  induction pre generalizing p with
  | nil => simp [stripPre, eq_comm]
  | cons a as ih =>
    cases p with
    | nil => simp [stripPre]
    | cons b bs =>
      by_cases h : a = b
      · subst h; simp [stripPre, ih]
      · have h2 : ¬ b = a := fun e => h e.symm
        simp [stripPre, h, h2]

theorem stripPre_append_self (pre q : List K) : stripPre pre (pre ++ q) = some q :=
  (stripPre_eq_some pre (pre ++ q) q).2 rfl

theorem stripPre_self (pre : List K) : stripPre pre pre = some [] := by
  have := stripPre_append_self pre ([] : List K)
  simpa using this

theorem stripPre_append (cm x p : List K) :
    stripPre (cm ++ x) p = (stripPre cm p).bind (stripPre x) := by
  induction cm generalizing p with
  | nil => simp [stripPre]
  | cons a as ih =>
    cases p with
    | nil => simp [stripPre]
    | cons b bs =>
      by_cases h : a = b
      · subst h; simp [stripPre, ih]
      · simp [stripPre, h]

theorem stripPre_cons_nil (a : K) (pre' : List K) : stripPre (a :: pre') [] = none := rfl

theorem stripPre_cons_ne (a b : K) (pre' rest : List K) (h : a ≠ b) :
    stripPre (a :: pre') (b :: rest) = none := by
  simp [stripPre, h]

theorem stripPre_cons_self (a : K) (pre' rest : List K) :
    stripPre (a :: pre') (a :: rest) = stripPre pre' rest := by
  simp [stripPre]

end Strip

section Val

variable {K P : Type} [DecidableEq K]

/-- The method `Lookup` in terms of the rest of the path after the node's `Prefix`. -/
theorem Lookup_eq (pre : List K) (ch : Option (ArrayMap K (TrieNode K P))) (pl : P)
    (ps : Bool) (p : List K) :
    Lookup (TrieNode.mk pre ch pl ps) p =
      match stripPre pre p with
      | none => none
      | some [] => if ps then some (TrieNode.mk pre ch pl ps) else none
      | some (k :: rest) =>
        match ArrayMap.Get (ch.getD ArrayMap.New) k with
        | some c => Lookup c (k :: rest)
        | none => none := by
  rcases prefix_cases pre p with
    ⟨rest, rfl⟩ | ⟨a, pre', rfl⟩ | ⟨cm, a, pre', b, rest, rfl, rfl, hab⟩
  · cases rest with
    | nil =>
      simp only [List.append_nil, stripPre_self]
      exact Lookup_exact pre ch pl ps
    | cons k rest =>
      rw [stripPre_append_self, Lookup_below]
      cases ch with
      | none => simp [ArrayMap.Get_New]
      | some m => simp
  · rw [Lookup_inside, stripPre_append, stripPre_self]
    simp [stripPre_cons_nil]
  · rw [Lookup_part cm a b pre' rest hab, stripPre_append, stripPre_append_self]
    simp [stripPre_cons_ne a b pre' rest hab]

/-- The payload stored under a path: the `Payload` of the node `Lookup` returns. -/
def val (t : TrieNode K P) (p : List K) : Option P := (Lookup t p).map Payload

theorem val_eq (pre : List K) (ch : Option (ArrayMap K (TrieNode K P))) (pl : P)
    (ps : Bool) (p : List K) :
    val (TrieNode.mk pre ch pl ps) p =
      match stripPre pre p with
      | none => none
      | some [] => if ps then some pl else none
      | some (k :: rest) =>
        match ArrayMap.Get (ch.getD ArrayMap.New) k with
        | some c => val c (k :: rest)
        | none => none := by
  unfold val
  rw [Lookup_eq]
  cases stripPre pre p with
  | none => rfl
  | some q =>
    cases q with
    | nil => cases ps <;> simp [Payload]
    | cons k rest =>
      simp only
      cases ArrayMap.Get (ch.getD ArrayMap.New) k <;> rfl

/-- Every node that `Lookup` returns has its payload set. -/
theorem Lookup_PayloadSet (t : TrieNode K P) :
    ∀ (p : List K) (n : TrieNode K P), Lookup t p = some n → n.PayloadSet = true := by
  induction t using TrieNode.induct with
  | step pre ch pl ps ih =>
    intro p n h
    rw [Lookup_eq] at h
    cases hs : stripPre pre p with
    | none => simp [hs] at h
    | some q =>
      cases q with
      | nil =>
        cases ps with
        | false => simp [hs] at h
        | true =>
          simp only [hs, if_true, Option.some.injEq] at h
          subst h; rfl
      | cons k rest =>
        simp only [hs] at h
        cases hg : ArrayMap.Get (ch.getD ArrayMap.New) k with
        | none => simp [hg] at h
        | some c =>
          simp only [hg] at h
          cases ch with
          | none => simp [ArrayMap.Get_New] at hg
          | some m =>
            exact ih m rfl (k, c) (ArrayMap.Get_mem m k c hg) (k :: rest) n h

theorem val_newLeaf (q : List K) (v : P) (p : List K) :
    val (newLeaf q v) p = if p = q then some v else none := by
  unfold newLeaf
  rw [val_eq]
  cases hs : stripPre q p with
  | none =>
    have : p ≠ q := by
      intro e; subst e; rw [stripPre_self] at hs; cases hs
    simp [this]
  | some r =>
    have hp := (stripPre_eq_some q p r).1 hs
    cases r with
    | nil => simp at hp; simp [hp]
    | cons k rest =>
      have : p ≠ q := by
        intro e; rw [e] at hp
        have := congrArg List.length hp
        simp at this
      simp [this, ArrayMap.Get_New]

end Val

/-! ## The effect of `Put` on the stored payloads -/

section ValPut

variable {K P : Type} [DecidableEq K]

theorem eq_append_iff_of_strip (pre p q rest : List K) (h : stripPre pre p = some q) :
    p = pre ++ rest ↔ q = rest := by
  have hp := (stripPre_eq_some pre p q).1 h
  subst hp
  exact List.append_right_inj pre

theorem ne_append_of_strip_none (pre p rest : List K) (h : stripPre pre p = none) :
    p ≠ pre ++ rest := by
  intro e
  rw [e, stripPre_append_self] at h
  cases h

/-- A node whose `Prefix` loses a leading run `cm` stores under `q` what the
node stored under `cm ++ q`. -/
theorem val_strip (cm pre : List K) (ch : Option (ArrayMap K (TrieNode K P))) (pl : P)
    (ps : Bool) (p : List K) :
    val (TrieNode.mk (cm ++ pre) ch pl ps) p =
      match stripPre cm p with
      | none => none
      | some q => val (TrieNode.mk pre ch pl ps) q := by
  rw [val_eq, stripPre_append]
  cases stripPre cm p with
  | none => rfl
  | some q => simp only [Option.some_bind]; rw [val_eq]

theorem val_Put_leaf_case (pre : List K) (m : ArrayMap K (TrieNode K P)) (pl : P) (ps : Bool)
    (k0 : K) (rest0 : List K) (v : P) (p : List K) (hg : ArrayMap.Get m k0 = none) :
    val (TrieNode.mk pre (some (m ++ [(k0, newLeaf (k0 :: rest0) v)])) pl ps) p =
      if p = pre ++ k0 :: rest0 then some v
      else
        match stripPre pre p with
        | none => none
        | some [] => if ps then some pl else none
        | some (k :: rest) =>
          match ArrayMap.Get m k with
          | some c => val c (k :: rest)
          | none => none := by
  rw [val_eq]
  cases hs : stripPre pre p with
  | none => simp [ne_append_of_strip_none pre p _ hs]
  | some q =>
    have hiff := eq_append_iff_of_strip pre p q (k0 :: rest0) hs
    cases q with
    | nil => simp [hiff]
    | cons k' r' =>
      simp only [Option.getD_some, ArrayMap.Get_append_single]
      cases hg' : ArrayMap.Get m k' with
      | some c =>
        have hne : k' ≠ k0 := by
          intro e; rw [e, hg] at hg'; cases hg'
        have : ¬ p = pre ++ k0 :: rest0 := by
          rw [hiff]; intro e; injection e with e1 _; exact hne e1
        simp [this]
      | none =>
        by_cases hk : k0 = k'
        · subst hk
          simp [hiff, val_newLeaf]
        · have : ¬ p = pre ++ k0 :: rest0 := by
            rw [hiff]; intro e; injection e with e1 _; exact hk e1.symm
          simp [this, hk]

variable [Inhabited P]

/-- After `Put(k, v)` the trie stores `v` under `k` and, under every other path,
what it stored before. -/
theorem val_Put (t : TrieNode K P) :
    ∀ (k : List K) (v : P) (p : List K),
      val (Put t k v).1 p = if p = k then some v else val t p := by
  induction t using TrieNode.induct with
  | step pre ch pl ps ih =>
    intro k v p
    rcases prefix_cases pre k with
      ⟨rest, rfl⟩ | ⟨a, pre', rfl⟩ | ⟨cm, a, pre', b, rest, rfl, rfl, hab⟩
    · cases rest with
      | nil =>
        simp only [List.append_nil, Put_exact]
        rw [val_eq, val_eq]
        cases hs : stripPre pre p with
        | none =>
          have := ne_append_of_strip_none pre p [] hs
          simp only [List.append_nil] at this
          simp [this]
        | some q =>
          have hiff := eq_append_iff_of_strip pre p q [] hs
          simp only [List.append_nil] at hiff
          cases q with
          | nil => simp [hiff]
          | cons k' r' => simp [hiff]
      | cons k0 rest0 =>
        rw [Put_below]
        cases hg : ArrayMap.Get (ch.getD ArrayMap.New) k0 with
        | none =>
          simp only
          rw [ArrayMap.Put_of_Get_none _ _ _ hg, val_Put_leaf_case _ _ _ _ _ _ _ _ hg,
            val_eq]
        | some c =>
          cases ch with
          | none => simp [ArrayMap.Get_New] at hg
          | some m =>
            simp only [Option.getD_some] at hg ⊢
            rw [val_eq, val_eq]
            cases hs : stripPre pre p with
            | none => simp [ne_append_of_strip_none pre p _ hs]
            | some q =>
              have hiff := eq_append_iff_of_strip pre p q (k0 :: rest0) hs
              cases q with
              | nil => simp [hiff]
              | cons k' r' =>
                simp only [Option.getD_some, ArrayMap.Get_update, hg]
                by_cases hk : k0 = k'
                · subst hk
                  simp only [if_true, hg]
                  rw [ih m rfl (k0, c) (ArrayMap.Get_mem m k0 c hg)]
                  simp only [hiff]
                · have : ¬ p = pre ++ k0 :: rest0 := by
                    rw [hiff]; intro e; injection e with e1 _; exact hk e1.symm
                  simp [this, hk]
    · rw [Put_inside, val_strip, val_eq]
      have hput : ArrayMap.Put (ArrayMap.New : ArrayMap K (TrieNode K P)) a
          (TrieNode.mk (a :: pre') ch pl ps) = [(a, TrieNode.mk (a :: pre') ch pl ps)] := rfl
      rw [hput]
      cases hs : stripPre k p with
      | none =>
        have := ne_append_of_strip_none k p [] hs
        simp only [List.append_nil] at this
        simp [this]
      | some q =>
        have hiff := eq_append_iff_of_strip k p q [] hs
        simp only [List.append_nil] at hiff
        cases q with
        | nil => simp [hiff]
        | cons k' r' =>
          simp only [hiff, Option.getD_some, ArrayMap.Get]
          by_cases hk : a = k'
          · subst hk; simp
          · have h2 : val (TrieNode.mk (a :: pre') ch pl ps) (k' :: r') = none := by
              rw [val_eq, stripPre_cons_ne a k' pre' r' hk]
            simp [hk, h2]
    · rw [Put_part cm a b pre' rest hab, val_strip, val_eq]
      have hput : ArrayMap.Put (ArrayMap.Put (ArrayMap.New : ArrayMap K (TrieNode K P)) a
          (TrieNode.mk (a :: pre') ch pl ps)) b (newLeaf (b :: rest) v) =
          [(a, TrieNode.mk (a :: pre') ch pl ps), (b, newLeaf (b :: rest) v)] := by
        simp [ArrayMap.Put, ArrayMap.New, hab]
      rw [hput]
      cases hs : stripPre cm p with
      | none => simp [ne_append_of_strip_none cm p _ hs]
      | some q =>
        have hiff := eq_append_iff_of_strip cm p q (b :: rest) hs
        cases q with
        | nil =>
          have h2 : val (TrieNode.mk (a :: pre') ch pl ps) [] = none := by
            rw [val_eq, stripPre_cons_nil]
          simp [hiff, h2]
        | cons k' r' =>
          simp only [hiff, Option.getD_some, ArrayMap.Get]
          by_cases hk : a = k'
          · subst hk
            have : ¬ (a :: r' = b :: rest) := by
              intro e; injection e with e1 _; exact hab e1
            simp [this]
          · have h2 : val (TrieNode.mk (a :: pre') ch pl ps) (k' :: r') = none := by
              rw [val_eq, stripPre_cons_ne a k' pre' r' hk]
            by_cases hb : b = k'
            · subst hb
              simp [hk, h2, val_newLeaf]
            · have : ¬ (k' :: r' = b :: rest) := by
                intro e; injection e with e1 _; exact hb e1.symm
              simp [hk, hb, h2, this]

end ValPut

/-! ## Tries built by a sequence of `Put` calls -/

section PutAll

variable {K P : Type} [DecidableEq K]

/-- The payload given by the last call among `ops` whose key is `k`, starting
from `init` when there is none. -/
def lastPutFrom (init : Option P) (ops : List (List K × P)) (k : List K) : Option P :=
  ops.foldl (fun acc op => if op.1 = k then some op.2 else acc) init

/-- The payload given by the last `Put` of the sequence `ops` whose key is `k`;
`none` when no call has that key. -/
def lastPut (ops : List (List K × P)) (k : List K) : Option P := lastPutFrom none ops k

theorem lastPutFrom_of_not_mem (init : Option P) (ops : List (List K × P)) (k : List K)
    (h : ∀ op ∈ ops, op.1 ≠ k) : lastPutFrom init ops k = init := by
  induction ops generalizing init with
  | nil => rfl
  | cons op ops ih =>
    have h1 : op.1 ≠ k := h op (List.mem_cons_self _ _)
    have h2 : ∀ o ∈ ops, o.1 ≠ k := fun o ho => h o (List.mem_cons_of_mem _ ho)
    simp only [lastPutFrom, List.foldl_cons, h1, if_false]
    exact ih init h2

theorem lastPutFrom_some_mem (init : Option P) (ops : List (List K × P)) (k : List K) (v : P)
    (h : lastPutFrom init ops k = some v) : init = some v ∨ (k, v) ∈ ops := by
  induction ops generalizing init with
  | nil => exact Or.inl h
  | cons op ops ih =>
    simp only [lastPutFrom, List.foldl_cons] at h
    rcases ih _ h with h1 | h1
    · by_cases hk : op.1 = k
      · simp only [hk, if_true, Option.some.injEq] at h1
        right
        obtain ⟨k0, v0⟩ := op
        simp only at hk h1
        simp [hk, h1]
      · simp only [hk, if_false] at h1
        exact Or.inl h1
    · exact Or.inr (List.mem_cons_of_mem _ h1)

variable [Inhabited P]

/-- The trie obtained from `NewTrieRoot()` by the calls `Put(op.1, op.2)` on
the root, for `op` in `ops` in order (the loop
`for _, e := range values { trie.Put(e.S, e.N) }` of the tests). -/
def putAll (ops : List (List K × P)) : TrieNode K P :=
  ops.foldl (fun t op => (Put t op.1 op.2).1) NewTrieRoot

theorem putAll_snoc (ops : List (List K × P)) (k : List K) (v : P) :
    putAll (ops ++ [(k, v)]) = (Put (putAll ops) k v).1 := by
  simp [putAll, List.foldl_append]

theorem val_NewTrieRoot (p : List K) : val (NewTrieRoot : TrieNode K P) p = none := by
  unfold NewTrieRoot
  rw [val_eq]
  cases p with
  | nil => simp [stripPre]
  | cons k rest => simp [stripPre, ArrayMap.Get_New]

theorem val_foldl_Put (ops : List (List K × P)) (t : TrieNode K P) (p : List K) :
    val (ops.foldl (fun t op => (Put t op.1 op.2).1) t) p = lastPutFrom (val t p) ops p := by
  induction ops generalizing t with
  | nil => rfl
  | cons op ops ih =>
    simp only [List.foldl_cons, lastPutFrom]
    rw [ih, val_Put]
    unfold lastPutFrom
    by_cases h : op.1 = p
    · simp [h]
    · have h2 : ¬ p = op.1 := fun e => h e.symm
      simp [h, h2]

/-- A trie built by `Put` calls stores under each path the payload of the last
call with that path. -/
theorem val_putAll (ops : List (List K × P)) (p : List K) :
    val (putAll ops) p = lastPut ops p := by
  unfold putAll lastPut
  rw [val_foldl_Put, val_NewTrieRoot]

/-- After `Put(path, v)` on any node, `Lookup(path)` on it returns a payload-set
node that holds `v`. -/
theorem Lookup_Put_self (t : TrieNode K P) (path : List K) (v : P) :
    ∃ n, Lookup (Put t path v).1 path = some n ∧ n.PayloadSet = true ∧ n.Payload = v := by
  have h := val_Put t path v path
  simp only [if_true, val, Option.map_eq_some'] at h
  obtain ⟨n, hn, hv⟩ := h
  exact ⟨n, hn, Lookup_PayloadSet _ _ _ hn, hv⟩

/-- C1. Round trip of `Put` and `Lookup`: for every trie obtained from
`NewTrieRoot()` by a finite sequence of `Put` calls, every path (the empty one
included) and every payload `v`, after `Put(path, v)` the call `Lookup(path)`
returns a node whose `PayloadSet` is true and whose `Payload` is `v`. -/
theorem Put_Lookup_roundtrip (ops : List (List K × P)) (path : List K) (v : P) :
    ∃ n, Lookup (Put (putAll ops) path v).1 path = some n ∧
      n.PayloadSet = true ∧ n.Payload = v :=
  Lookup_Put_self (putAll ops) path v

/-- C2. `Put` never loses another stored key: in a trie obtained from
`NewTrieRoot()` by `Put` calls, when `Lookup(k')` returns a node with payload
`w` and `k` differs from `k'`, then after `Put(k, v)` the call `Lookup(k')`
still returns a node with `PayloadSet` true and `Payload` `w`. -/
theorem Put_keeps_other_keys (ops : List (List K × P)) (k k' : List K) (v w : P)
    (n : TrieNode K P) (hl : Lookup (putAll ops) k' = some n) (hw : n.Payload = w)
    (hne : k ≠ k') :
    ∃ n', Lookup (Put (putAll ops) k v).1 k' = some n' ∧
      n'.PayloadSet = true ∧ n'.Payload = w := by
  have h := val_Put (putAll ops) k v k'
  have hne' : ¬ k' = k := fun e => hne e.symm
  simp only [hne', if_false, val, hl, Option.map_some', hw, Option.map_eq_some'] at h
  obtain ⟨n', hn', hv⟩ := h
  exact ⟨n', hn', Lookup_PayloadSet _ _ _ hn', hv⟩

/-- C3. `Lookup` finds no key that was never inserted: in the trie obtained
from `NewTrieRoot()` by `Put` calls with keys `k1..kn`, `Lookup(p)` returns nil
for every path `p` that is none of the `ki`. -/
theorem Lookup_never_inserted (ops : List (List K × P)) (p : List K)
    (h : ∀ op ∈ ops, op.1 ≠ p) : Lookup (putAll ops) p = none := by
  have hv := val_putAll ops p
  rw [lastPut, lastPutFrom_of_not_mem none ops p h] at hv
  simpa [val] using hv

end PutAll

/-! ## Routes, full keys and the structural invariant -/

section Routes

variable {K P : Type}

/-- The child of a node at position `i` in the iteration order of its child
mapping. -/
def childAt (t : TrieNode K P) (i : Nat) : Option (TrieNode K P) :=
  match t.Children with
  | none => none
  | some m => (m.get? i).map Prod.snd

/-- The node reached from `t` by a route, a list of child positions. -/
def nodeAt : TrieNode K P → List Nat → Option (TrieNode K P)
  | t, [] => some t
  | t, i :: r =>
    match childAt t i with
    | some c => nodeAt c r
    | none => none

/-- The full key of the node at a route: the concatenation of the `Prefix`
fields of the nodes on the route from `t` down to and including that node. -/
def fullKey : TrieNode K P → List Nat → Option (List K)
  | t, [] => some t.Prefix
  | t, i :: r =>
    match childAt t i with
    | some c => (fullKey c r).map (fun q => t.Prefix ++ q)
    | none => none

/-- The invariant on the nodes of a trie: in every child mapping the keys are
pairwise distinct and each child is stored under the first element of its own
`Prefix` (which is therefore non-empty). -/
inductive WF : TrieNode K P → Prop
  | mk (pre : List K) (ch : Option (ArrayMap K (TrieNode K P))) (pl : P) (ps : Bool)
      (hkeys : ∀ m, ch = some m →
        (m.map Prod.fst).Nodup ∧ ∀ e ∈ m, ∃ rest, e.2.Prefix = e.1 :: rest)
      (hch : ∀ m, ch = some m → ∀ e ∈ m, WF e.2) :
      WF (TrieNode.mk pre ch pl ps)

theorem WF.keys {pre : List K} {m : ArrayMap K (TrieNode K P)} {pl : P} {ps : Bool}
    (h : WF (TrieNode.mk pre (some m) pl ps)) :
    (m.map Prod.fst).Nodup ∧ ∀ e ∈ m, ∃ rest, e.2.Prefix = e.1 :: rest := by
  cases h with
  | mk _ _ _ _ hkeys hch => exact hkeys m rfl

theorem WF.child {pre : List K} {m : ArrayMap K (TrieNode K P)} {pl : P} {ps : Bool}
    (h : WF (TrieNode.mk pre (some m) pl ps)) : ∀ e ∈ m, WF e.2 := by
  cases h with
  | mk _ _ _ _ hkeys hch => exact hch m rfl

theorem WF_leaf (pre : List K) (pl : P) (ps : Bool) :
    WF (TrieNode.mk pre none pl ps : TrieNode K P) :=
  WF.mk pre none pl ps (fun m h => by cases h) (fun m h => by cases h)

theorem WF_payload {pre : List K} {ch : Option (ArrayMap K (TrieNode K P))} {pl : P}
    {ps : Bool} (h : WF (TrieNode.mk pre ch pl ps)) (pre2 : List K) (pl2 : P) (ps2 : Bool) :
    WF (TrieNode.mk pre2 ch pl2 ps2) := by
  cases h with
  | mk _ _ _ _ hkeys hch => exact WF.mk pre2 ch pl2 ps2 hkeys hch

end Routes

namespace ArrayMap

variable {K V : Type} [DecidableEq K]

theorem keys_update (m : ArrayMap K V) (k : K) (v : V) :
    (update m k v).map Prod.fst = m.map Prod.fst := by
  induction m with
  | nil => rfl
  | cons e es ih =>
    obtain ⟨k₀, v₀⟩ := e
    by_cases hk : k₀ = k <;> simp [update, hk, ih]

theorem mem_update (m : ArrayMap K V) (k : K) (v : V) (e : K × V) (h : e ∈ update m k v) :
    e ∈ m ∨ e = (k, v) := by
  induction m with
  | nil => simp [update] at h
  | cons e₀ es ih =>
    obtain ⟨k₀, v₀⟩ := e₀
    by_cases hk : k₀ = k
    · simp only [update, hk, if_true, List.mem_cons] at h
      rcases h with h | h
      · exact Or.inr h
      · exact Or.inl (List.mem_cons_of_mem _ h)
    · simp only [update, hk, if_false, List.mem_cons] at h
      rcases h with h | h
      · exact Or.inl (by simp [h])
      · rcases ih h with h' | h'
        · exact Or.inl (List.mem_cons_of_mem _ h')
        · exact Or.inr h'

theorem Get_none_iff (m : ArrayMap K V) (k : K) :
    Get m k = none ↔ k ∉ m.map Prod.fst := by
  induction m with
  | nil => simp [Get]
  | cons e es ih =>
    obtain ⟨k₀, v₀⟩ := e
    by_cases hk : k₀ = k
    · simp [Get, hk]
    · have hk2 : ¬ k = k₀ := fun e => hk e.symm
      simp [Get, hk, hk2, ih]

theorem Get_of_mem (m : ArrayMap K V) (k : K) (c : V) (hnd : (m.map Prod.fst).Nodup)
    (h : (k, c) ∈ m) : Get m k = some c := by
  induction m with
  | nil => cases h
  | cons e es ih =>
    obtain ⟨k₀, v₀⟩ := e
    simp only [List.map_cons, List.nodup_cons] at hnd
    rcases List.mem_cons.1 h with h | h
    · injection h with h1 h2
      simp [Get, h1, h2]
    · have hk : k₀ ≠ k := by
        intro e; subst e
        exact hnd.1 (List.mem_map.2 ⟨(k₀, c), h, rfl⟩)
      simp only [Get, hk, if_false]
      exact ih hnd.2 h

omit [DecidableEq K] in
theorem index_unique (m : ArrayMap K V) (k : K) (c₁ c₂ : V) (i j : Nat)
    (hnd : (m.map Prod.fst).Nodup) (hi : m.get? i = some (k, c₁))
    (hj : m.get? j = some (k, c₂)) : i = j := by
  induction m generalizing i j with
  | nil => simp at hi
  | cons e es ih =>
    simp only [List.map_cons, List.nodup_cons] at hnd
    cases i with
    | zero =>
      cases j with
      | zero => rfl
      | succ j =>
        simp only [List.get?_cons_zero, Option.some.injEq] at hi
        simp only [List.get?_cons_succ] at hj
        exfalso
        apply hnd.1
        rw [hi]
        exact List.mem_map.2 ⟨(k, c₂), List.get?_mem hj, rfl⟩
    | succ i =>
      cases j with
      | zero =>
        simp only [List.get?_cons_zero, Option.some.injEq] at hj
        simp only [List.get?_cons_succ] at hi
        exfalso
        apply hnd.1
        rw [hj]
        exact List.mem_map.2 ⟨(k, c₁), List.get?_mem hi, rfl⟩
      | succ j =>
        simp only [List.get?_cons_succ] at hi hj
        rw [ih i j hnd.2 hi hj]

theorem Get_get? (m : ArrayMap K V) (k : K) (c : V) (h : Get m k = some c) :
    ∃ i, m.get? i = some (k, c) := by
  have := Get_mem m k c h
  obtain ⟨i, hi⟩ := List.get?_of_mem this
  exact ⟨i, hi⟩

end ArrayMap

section Invariant

variable {K P : Type} [DecidableEq K] [Inhabited P]

/-- The method `Put`, called with a path that starts with the first element of
the node's `Prefix`, leaves a `Prefix` that starts with that element. -/
theorem Put_Prefix_head (t : TrieNode K P) (k0 : K) (r rest : List K) (v : P)
    (h : t.Prefix = k0 :: r) : ∃ r', (Put t (k0 :: rest) v).1.Prefix = k0 :: r' := by
  obtain ⟨pre, ch, pl, ps⟩ := t
  simp only [Prefix] at h
  subst h
  rcases prefix_cases (k0 :: r) (k0 :: rest) with
    ⟨rest', h1⟩ | ⟨a, pre', h1⟩ | ⟨cm, a, pre', b, rest', h1, h2, hab⟩
  · rw [h1]
    cases rest' with
    | nil => rw [List.append_nil, Put_exact]; exact ⟨r, rfl⟩
    | cons x xs =>
      rw [Put_below]
      cases ArrayMap.Get (ch.getD ArrayMap.New) x <;> exact ⟨r, rfl⟩
  · rw [h1, Put_inside]; exact ⟨rest, rfl⟩
  · rw [h1, h2, Put_part cm a b pre' rest' hab]
    cases cm with
    | nil =>
      simp only [List.nil_append, List.cons.injEq] at h1 h2
      exact absurd (h1.1.symm.trans h2.1) hab
    | cons c cs =>
      simp only [List.cons_append, List.cons.injEq] at h1
      exact ⟨cs, by simp [Prefix, h1.1]⟩

/-- The method `Put` leaves an empty `Prefix` empty: the root is never split. -/
theorem Put_Prefix_nil (t : TrieNode K P) (k : List K) (v : P) (h : t.Prefix = []) :
    (Put t k v).1.Prefix = [] := by
  obtain ⟨pre, ch, pl, ps⟩ := t
  simp only [Prefix] at h
  subst h
  cases k with
  | nil => rw [Put_exact]; rfl
  | cons x xs =>
    have := Put_below ([] : List K) ch pl ps x xs v
    simp only [List.nil_append] at this
    rw [this]
    cases ArrayMap.Get (ch.getD ArrayMap.New) x <;> rfl

/-- The method `Put` keeps the invariant. -/
theorem WF_Put (t : TrieNode K P) : WF t → ∀ (k : List K) (v : P), WF (Put t k v).1 := by
  induction t using TrieNode.induct with
  | step pre ch pl ps ih =>
    intro hwf k v
    rcases prefix_cases pre k with
      ⟨rest, rfl⟩ | ⟨a, pre', rfl⟩ | ⟨cm, a, pre', b, rest, rfl, rfl, hab⟩
    · cases rest with
      | nil =>
        rw [List.append_nil, Put_exact]
        exact WF_payload hwf pre v true
      | cons k0 rest0 =>
        rw [Put_below]
        cases hg : ArrayMap.Get (ch.getD ArrayMap.New) k0 with
        | none =>
          simp only
          rw [ArrayMap.Put_of_Get_none _ _ _ hg]
          have hnot := (ArrayMap.Get_none_iff _ _).1 hg
          cases ch with
          | none =>
            refine WF.mk _ _ _ _ ?_ ?_
            · intro m hm
              cases hm
              simp [ArrayMap.New, newLeaf, Prefix]
            · intro m hm e he
              cases hm
              simp only [Option.getD_none, ArrayMap.New, List.nil_append,
                List.mem_singleton] at he
              subst he
              exact WF_leaf _ _ _
          | some m =>
            simp only [Option.getD_some] at hnot ⊢
            have hk := hwf.keys
            have hc := hwf.child
            refine WF.mk _ _ _ _ ?_ ?_
            · intro m' hm'
              cases hm'
              refine ⟨?_, ?_⟩
              · rw [List.map_append, List.nodup_append]
                refine ⟨hk.1, by simp, ?_⟩
                intro x hx hx'
                simp only [List.map_cons, List.map_nil, List.mem_singleton] at hx'
                subst hx'
                exact hnot hx
              · intro e he
                rcases List.mem_append.1 he with he | he
                · exact hk.2 e he
                · simp only [List.mem_singleton] at he
                  subst he
                  exact ⟨rest0, rfl⟩
            · intro m' hm' e he
              cases hm'
              rcases List.mem_append.1 he with he | he
              · exact hc e he
              · simp only [List.mem_singleton] at he
                subst he
                exact WF_leaf _ _ _
        | some c =>
          cases ch with
          | none => simp [ArrayMap.Get_New] at hg
          | some m =>
            simp only [Option.getD_some] at hg ⊢
            have hk := hwf.keys
            have hc := hwf.child
            have hmem := ArrayMap.Get_mem m k0 c hg
            refine WF.mk _ _ _ _ ?_ ?_
            · intro m' hm'
              cases hm'
              refine ⟨by rw [ArrayMap.keys_update]; exact hk.1, ?_⟩
              intro e he
              rcases ArrayMap.mem_update m k0 _ e he with he | he
              · exact hk.2 e he
              · subst he
                obtain ⟨r, hr⟩ := hk.2 (k0, c) hmem
                exact Put_Prefix_head c k0 r rest0 v hr
            · intro m' hm' e he
              cases hm'
              rcases ArrayMap.mem_update m k0 _ e he with he | he
              · exact hc e he
              · subst he
                exact ih m rfl (k0, c) hmem (hc (k0, c) hmem) (k0 :: rest0) v
    · rw [Put_inside]
      have hn1 := WF_payload hwf (a :: pre') pl ps
      refine WF.mk _ _ _ _ ?_ ?_
      · intro m hm
        cases hm
        simp [ArrayMap.Put, ArrayMap.New, Prefix]
      · intro m hm e he
        cases hm
        simp only [ArrayMap.Put, ArrayMap.New, List.mem_singleton] at he
        subst he
        exact hn1
    · rw [Put_part cm a b pre' rest hab]
      have hn1 := WF_payload hwf (a :: pre') pl ps
      have hput : ArrayMap.Put (ArrayMap.Put (ArrayMap.New : ArrayMap K (TrieNode K P)) a
          (TrieNode.mk (a :: pre') ch pl ps)) b (newLeaf (b :: rest) v) =
          [(a, TrieNode.mk (a :: pre') ch pl ps), (b, newLeaf (b :: rest) v)] := by
        simp [ArrayMap.Put, ArrayMap.New, hab]
      rw [hput]
      refine WF.mk _ _ _ _ ?_ ?_
      · intro m hm
        cases hm
        simp [Prefix, newLeaf, hab]
      · intro m hm e he
        cases hm
        simp only [List.mem_cons, List.mem_singleton, List.not_mem_nil, or_false] at he
        rcases he with he | he
        · subst he; exact hn1
        · subst he; exact WF_leaf _ _ _

/-- Every trie built by `Put` calls satisfies the invariant. -/
theorem WF_putAll (ops : List (List K × P)) : WF (putAll ops) := by
  induction ops using List.reverseRecOn with
  | nil => exact WF_leaf _ _ _
  | append_singleton ops op ih =>
    obtain ⟨k, v⟩ := op
    rw [putAll_snoc]
    exact WF_Put _ ih k v

/-- The root of every trie built by `Put` calls has an empty `Prefix`. -/
theorem Prefix_putAll (ops : List (List K × P)) : (putAll ops).Prefix = [] := by
  induction ops using List.reverseRecOn with
  | nil => rfl
  | append_singleton ops op ih =>
    obtain ⟨k, v⟩ := op
    rw [putAll_snoc]
    exact Put_Prefix_nil _ k v ih

end Invariant

/-! ## Lookup and routes -/

section LookupRoutes

variable {K P : Type}

theorem childAt_eq_some (pre : List K) (ch : Option (ArrayMap K (TrieNode K P))) (pl : P)
    (ps : Bool) (i : Nat) (c : TrieNode K P) :
    childAt (TrieNode.mk pre ch pl ps) i = some c ↔
      ∃ m k, ch = some m ∧ m.get? i = some (k, c) := by
  cases ch with
  | none => simp [childAt, Children]
  | some m =>
    simp only [childAt, Children, Option.map_eq_some', Option.some.injEq, exists_and_left,
      exists_eq_left']
    constructor
    · rintro ⟨⟨k, c'⟩, h, rfl⟩
      exact ⟨k, h⟩
    · rintro ⟨k, h⟩
      exact ⟨(k, c), h, rfl⟩

theorem fullKey_starts (t : TrieNode K P) (r : List Nat) (q : List K)
    (h : fullKey t r = some q) : ∃ s, q = t.Prefix ++ s := by
  cases r with
  | nil =>
    simp only [fullKey, Option.some.injEq] at h
    exact ⟨[], by simp [h]⟩
  | cons i r =>
    simp only [fullKey] at h
    cases hc : childAt t i with
    | none => simp [hc] at h
    | some c =>
      simp only [hc, Option.map_eq_some'] at h
      obtain ⟨s, _, hs⟩ := h
      exact ⟨s, hs.symm⟩

variable [DecidableEq K]

/-- The node `Lookup(p)` returns sits at a route whose full key is `p`. -/
theorem Lookup_route (t : TrieNode K P) :
    ∀ (p : List K) (n : TrieNode K P), Lookup t p = some n →
      ∃ r, nodeAt t r = some n ∧ fullKey t r = some p := by
  induction t using TrieNode.induct with
  | step pre ch pl ps ih =>
    intro p n h
    rw [Lookup_eq] at h
    cases hs : stripPre pre p with
    | none => simp [hs] at h
    | some q =>
      have hp := (stripPre_eq_some pre p q).1 hs
      cases q with
      | nil =>
        cases ps with
        | false => simp [hs] at h
        | true =>
          simp only [hs, if_true, Option.some.injEq] at h
          subst h
          exact ⟨[], rfl, by simp [fullKey, Prefix, hp]⟩
      | cons k rest =>
        simp only [hs] at h
        cases hg : ArrayMap.Get (ch.getD ArrayMap.New) k with
        | none => simp [hg] at h
        | some c =>
          simp only [hg] at h
          cases ch with
          | none => simp [ArrayMap.Get_New] at hg
          | some m =>
            simp only [Option.getD_some] at hg
            obtain ⟨r, hr1, hr2⟩ := ih m rfl (k, c) (ArrayMap.Get_mem m k c hg) (k :: rest) n h
            obtain ⟨i, hi⟩ := ArrayMap.Get_get? m k c hg
            have hch : childAt (TrieNode.mk pre (some m) pl ps) i = some c :=
              (childAt_eq_some pre (some m) pl ps i c).2 ⟨m, k, rfl, hi⟩
            refine ⟨i :: r, ?_, ?_⟩
            · simp only [nodeAt, hch]; exact hr1
            · simp only [fullKey, hch] at hr2 ⊢
              simp [hr2, Prefix, hp]

/-- In a trie that satisfies the invariant, `Lookup` with the full key of a
payload-set node returns that node. -/
theorem route_Lookup (r : List Nat) :
    ∀ (t : TrieNode K P) (p : List K) (n : TrieNode K P), WF t → nodeAt t r = some n →
      n.PayloadSet = true → fullKey t r = some p → Lookup t p = some n := by
  induction r with
  | nil =>
    intro t p n _ hn hps hk
    obtain ⟨pre, ch, pl, ps⟩ := t
    simp only [nodeAt, Option.some.injEq] at hn
    simp only [fullKey, Prefix, Option.some.injEq] at hk
    subst hn hk
    simp only [PayloadSet] at hps
    rw [Lookup_exact]
    simp [hps]
  | cons i r ih =>
    intro t p n hwf hn hps hk
    obtain ⟨pre, ch, pl, ps⟩ := t
    simp only [nodeAt] at hn
    simp only [fullKey] at hk
    cases hc : childAt (TrieNode.mk pre ch pl ps) i with
    | none => simp [hc] at hn
    | some c =>
      simp only [hc] at hn
      simp only [hc, Option.map_eq_some', Prefix] at hk
      obtain ⟨q, hq, hpq⟩ := hk
      obtain ⟨m, k, hm, hi⟩ := (childAt_eq_some pre ch pl ps i c).1 hc
      subst hm
      have hmem : (k, c) ∈ m := List.get?_mem hi
      obtain ⟨rest, hrest⟩ := hwf.keys.2 (k, c) hmem
      obtain ⟨s, hs⟩ := fullKey_starts c r q hq
      simp only at hrest
      rw [hrest] at hs
      have hget := ArrayMap.Get_of_mem m k c hwf.keys.1 hmem
      have hl := ih c q n (hwf.child (k, c) hmem) hn hps hq
      subst hpq
      rw [hs, List.cons_append, Lookup_below]
      simp only [hget]
      rw [hs, List.cons_append] at hl
      exact hl

omit [DecidableEq K] in
/-- In a trie that satisfies the invariant, two routes with the same full key
are the same route. -/
theorem route_unique (r₁ : List Nat) :
    ∀ (t : TrieNode K P) (r₂ : List Nat) (p : List K), WF t →
      fullKey t r₁ = some p → fullKey t r₂ = some p → r₁ = r₂ := by
  induction r₁ with
  | nil =>
    intro t r₂ p hwf h1 h2
    cases r₂ with
    | nil => rfl
    | cons j r₂ =>
      exfalso
      obtain ⟨pre, ch, pl, ps⟩ := t
      simp only [fullKey, Prefix, Option.some.injEq] at h1
      simp only [fullKey] at h2
      cases hc : childAt (TrieNode.mk pre ch pl ps) j with
      | none => simp [hc] at h2
      | some c =>
        simp only [hc, Option.map_eq_some', Prefix] at h2
        obtain ⟨q, hq, hpq⟩ := h2
        obtain ⟨m, k, hm, hj⟩ := (childAt_eq_some pre ch pl ps j c).1 hc
        subst hm
        obtain ⟨rest, hrest⟩ := hwf.keys.2 (k, c) (List.get?_mem hj)
        obtain ⟨s, hs⟩ := fullKey_starts c r₂ q hq
        simp only at hrest
        rw [hrest] at hs
        rw [← h1, hs] at hpq
        have := congrArg List.length hpq
        simp at this
  | cons i r₁ ih =>
    intro t r₂ p hwf h1 h2
    obtain ⟨pre, ch, pl, ps⟩ := t
    simp only [fullKey] at h1
    cases hc : childAt (TrieNode.mk pre ch pl ps) i with
    | none => simp [hc] at h1
    | some c =>
      simp only [hc, Option.map_eq_some', Prefix] at h1
      obtain ⟨q, hq, hpq⟩ := h1
      obtain ⟨m, k, hm, hi⟩ := (childAt_eq_some pre ch pl ps i c).1 hc
      subst hm
      obtain ⟨rest, hrest⟩ := hwf.keys.2 (k, c) (List.get?_mem hi)
      obtain ⟨s, hs⟩ := fullKey_starts c r₁ q hq
      simp only at hrest
      rw [hrest] at hs
      cases r₂ with
      | nil =>
        exfalso
        simp only [fullKey, Prefix, Option.some.injEq] at h2
        rw [← h2, hs] at hpq
        have := congrArg List.length hpq
        simp at this
      | cons j r₂ =>
        simp only [fullKey] at h2
        cases hc' : childAt (TrieNode.mk pre (some m) pl ps) j with
        | none => simp [hc'] at h2
        | some c' =>
          simp only [hc', Option.map_eq_some', Prefix] at h2
          obtain ⟨q', hq', hpq'⟩ := h2
          obtain ⟨m', k', hm', hj⟩ := (childAt_eq_some pre (some m) pl ps j c').1 hc'
          cases hm'
          obtain ⟨rest', hrest'⟩ := hwf.keys.2 (k', c') (List.get?_mem hj)
          obtain ⟨s', hs'⟩ := fullKey_starts c' r₂ q' hq'
          simp only at hrest'
          rw [hrest'] at hs'
          have hqq : q = q' := List.append_cancel_left (hpq.trans hpq'.symm)
          have hkk : k = k' := by
            rw [hs, hs'] at hqq
            simp only [List.cons_append, List.cons.injEq] at hqq
            exact hqq.1
          subst hkk
          have hij : i = j := ArrayMap.index_unique m k c c' i j hwf.keys.1 hi hj
          subst hij
          rw [hi] at hj
          simp only [Option.some.injEq, Prod.mk.injEq, true_and] at hj
          subst hj
          rw [hqq] at hq
          rw [ih c r₂ q' (hwf.child (k, c) (List.get?_mem hi)) hq hq']

variable [Inhabited P]

/-- C4. `Lookup` is exact with respect to the tree structure: in every trie
obtained from `NewTrieRoot()` by `Put` calls, `Lookup(p)` returns node `n` if
and only if `n` is a node of the trie with `PayloadSet` true whose full key is
`p`; at most one node of the trie has full key `p`; and when there is no such
node `Lookup(p)` returns nil. -/
theorem Lookup_iff_route (ops : List (List K × P)) (p : List K) :
    (∀ n, Lookup (putAll ops) p = some n ↔
      ∃ r, nodeAt (putAll ops) r = some n ∧ n.PayloadSet = true ∧
        fullKey (putAll ops) r = some p) ∧
    (∀ r₁ r₂ n₁ n₂, nodeAt (putAll ops) r₁ = some n₁ → n₁.PayloadSet = true →
      fullKey (putAll ops) r₁ = some p → nodeAt (putAll ops) r₂ = some n₂ →
      n₂.PayloadSet = true → fullKey (putAll ops) r₂ = some p → r₁ = r₂) ∧
    ((¬ ∃ r n, nodeAt (putAll ops) r = some n ∧ n.PayloadSet = true ∧
        fullKey (putAll ops) r = some p) → Lookup (putAll ops) p = none) := by
  have hwf := WF_putAll ops
  have hiff : ∀ n, Lookup (putAll ops) p = some n ↔
      ∃ r, nodeAt (putAll ops) r = some n ∧ n.PayloadSet = true ∧
        fullKey (putAll ops) r = some p := by
    intro n
    constructor
    · intro h
      obtain ⟨r, hr1, hr2⟩ := Lookup_route _ p n h
      exact ⟨r, hr1, Lookup_PayloadSet _ p n h, hr2⟩
    · rintro ⟨r, hr1, hps, hr2⟩
      exact route_Lookup r _ p n hwf hr1 hps hr2
  refine ⟨hiff, ?_, ?_⟩
  · intro r₁ r₂ n₁ n₂ _ _ h1 _ _ h2
    exact route_unique r₁ _ r₂ p hwf h1 h2
  · intro hno
    cases hl : Lookup (putAll ops) p with
    | none => rfl
    | some n =>
      obtain ⟨r, hr⟩ := (hiff n).1 hl
      exact absurd ⟨r, n, hr⟩ hno

end LookupRoutes

/-! ## Writing a key twice -/

namespace ArrayMap

variable {K V : Type} [DecidableEq K]

theorem update_update (m : ArrayMap K V) (k : K) (a b : V) :
    update (update m k a) k b = update m k b := by
  induction m with
  | nil => rfl
  | cons e es ih =>
    obtain ⟨k₀, v₀⟩ := e
    by_cases hk : k₀ = k <;> simp [update, hk, ih]

theorem update_append_single (m : ArrayMap K V) (k : K) (a b : V) (h : Get m k = none) :
    update (m ++ [(k, a)]) k b = m ++ [(k, b)] := by
  induction m with
  | nil => simp [update]
  | cons e es ih =>
    obtain ⟨k₀, v₀⟩ := e
    by_cases hk : k₀ = k
    · simp [Get, hk] at h
    · simp only [Get, hk, if_false] at h
      simp [update, hk, ih h]

theorem update_eq_set (m : ArrayMap K V) (k : K) (c : V) (h : Get m k = some c) :
    ∃ i, m.get? i = some (k, c) ∧ ∀ v, update m k v = m.set i (k, v) := by
  induction m with
  | nil => simp [Get] at h
  | cons e es ih =>
    obtain ⟨k₀, v₀⟩ := e
    by_cases hk : k₀ = k
    · simp only [Get, hk, if_true, Option.some.injEq] at h
      subst hk h
      exact ⟨0, rfl, fun v => by simp [update]⟩
    · simp only [Get, hk, if_false] at h
      obtain ⟨i, hi, hu⟩ := ih h
      exact ⟨i + 1, by simpa using hi, fun v => by simp [update, hk, hu v]⟩

end ArrayMap

section Overwrite

variable {K P : Type}

/-- The trie `t` with the `Payload` field of the node at route `r` replaced by
`v`, every other field of every node left as it is. -/
def setPayloadAt : List Nat → P → TrieNode K P → TrieNode K P
  | [], v, t => TrieNode.mk t.Prefix t.Children v t.PayloadSet
  | i :: r, v, t =>
    match t.Children with
    | none => t
    | some m =>
      match m.get? i with
      | none => t
      | some (k, c) =>
        TrieNode.mk t.Prefix (some (m.set i (k, setPayloadAt r v c))) t.Payload t.PayloadSet

theorem nodeAt_setPayloadAt (r : List Nat) (v : P) :
    ∀ (t n : TrieNode K P), nodeAt t r = some n →
      nodeAt (setPayloadAt r v t) r = some (TrieNode.mk n.Prefix n.Children v n.PayloadSet) := by
  induction r with
  | nil =>
    intro t n h
    simp only [nodeAt, Option.some.injEq] at h
    subst h
    rfl
  | cons i r ih =>
    intro t n h
    obtain ⟨pre, ch, pl, ps⟩ := t
    simp only [nodeAt] at h
    cases hc : childAt (TrieNode.mk pre ch pl ps) i with
    | none => simp [hc] at h
    | some c =>
      simp only [hc] at h
      obtain ⟨m, k, hm, hi⟩ := (childAt_eq_some pre ch pl ps i c).1 hc
      subst hm
      have hlt : i < m.length := by
        rcases Nat.lt_or_ge i m.length with h' | h'
        · exact h'
        · rw [List.get?_eq_none.2 h'] at hi; cases hi
      have hc2 : childAt (TrieNode.mk pre (some (m.set i (k, setPayloadAt r v c))) pl ps) i =
          some (setPayloadAt r v c) := by
        simp [childAt, Children, hlt]
      simp only [setPayloadAt, Children, hi, Prefix, Payload, PayloadSet, nodeAt, hc2]
      exact ih c n h

theorem Prefix_setPayloadAt (r : List Nat) (v : P) (t : TrieNode K P) :
    (setPayloadAt r v t).Prefix = t.Prefix := by
  obtain ⟨pre, ch, pl, ps⟩ := t
  cases r with
  | nil => rfl
  | cons i r =>
    simp only [setPayloadAt, Children]
    cases ch with
    | none => rfl
    | some m =>
      simp only
      cases m.get? i with
      | none => rfl
      | some e => rfl

theorem fullKey_setPayloadAt (r : List Nat) (v : P) :
    ∀ (t : TrieNode K P) (p : List K), fullKey t r = some p →
      fullKey (setPayloadAt r v t) r = some p := by
  induction r with
  | nil =>
    intro t p h
    simpa [fullKey, Prefix_setPayloadAt] using h
  | cons i r ih =>
    intro t p h
    obtain ⟨pre, ch, pl, ps⟩ := t
    simp only [fullKey] at h
    cases hc : childAt (TrieNode.mk pre ch pl ps) i with
    | none => simp [hc] at h
    | some c =>
      simp only [hc, Option.map_eq_some', Prefix] at h
      obtain ⟨q, hq, hpq⟩ := h
      obtain ⟨m, k, hm, hi⟩ := (childAt_eq_some pre ch pl ps i c).1 hc
      subst hm
      have hlt : i < m.length := by
        rcases Nat.lt_or_ge i m.length with h' | h'
        · exact h'
        · rw [List.get?_eq_none.2 h'] at hi; cases hi
      have hc2 : childAt (TrieNode.mk pre (some (m.set i (k, setPayloadAt r v c))) pl ps) i =
          some (setPayloadAt r v c) := by
        simp [childAt, Children, hlt]
      simp only [setPayloadAt, Children, hi, Prefix, Payload, PayloadSet, fullKey, hc2,
        ih c q hq, Option.map_some', hpq]

variable [DecidableEq K] [Inhabited P]

/-- Two `Put` calls with the same key amount to the second one alone. -/
theorem Put_Put_same (t : TrieNode K P) :
    ∀ (k : List K) (v₁ v₂ : P), Put (Put t k v₁).1 k v₂ = Put t k v₂ := by
  induction t using TrieNode.induct with
  | step pre ch pl ps ih =>
    intro k v₁ v₂
    rcases prefix_cases pre k with
      ⟨rest, rfl⟩ | ⟨a, pre', rfl⟩ | ⟨cm, a, pre', b, rest, rfl, rfl, hab⟩
    · cases rest with
      | nil => simp only [List.append_nil, Put_exact]
      | cons k0 rest0 =>
        rw [Put_below, Put_below]
        cases hg : ArrayMap.Get (ch.getD ArrayMap.New) k0 with
        | none =>
          simp only
          rw [Put_below]
          simp only [Option.getD_some, ArrayMap.Put_of_Get_none _ _ _ hg,
            ArrayMap.Get_append_single, hg, if_true,
            ArrayMap.update_append_single _ _ _ _ hg]
          simp [newLeaf, Put_exact]
        | some c =>
          cases ch with
          | none => simp [ArrayMap.Get_New] at hg
          | some m =>
            simp only [Option.getD_some] at hg ⊢
            rw [Put_below]
            simp only [Option.getD_some, ArrayMap.Get_update, if_true, hg,
              ArrayMap.update_update, ih m rfl (k0, c) (ArrayMap.Get_mem m k0 c hg)]
    · rw [Put_inside, Put_exact, Put_inside]
    · rw [Put_part cm a b pre' rest hab, Put_part cm a b pre' rest hab]
      have hput : ∀ v, ArrayMap.Put (ArrayMap.Put (ArrayMap.New : ArrayMap K (TrieNode K P)) a
          (TrieNode.mk (a :: pre') ch pl ps)) b (newLeaf (b :: rest) v) =
          [(a, TrieNode.mk (a :: pre') ch pl ps), (b, newLeaf (b :: rest) v)] := by
        intro v
        simp [ArrayMap.Put, ArrayMap.New, hab]
      rw [hput, hput, Put_below]
      simp [ArrayMap.Get, ArrayMap.update, hab, newLeaf, Put_exact]

/-- A `Put` with a key that `Lookup` finds replaces the `Payload` of the node
found and nothing else. -/
theorem Put_eq_setPayloadAt (t : TrieNode K P) :
    ∀ (k : List K) (n : TrieNode K P) (v : P), Lookup t k = some n →
      ∃ r, nodeAt t r = some n ∧ fullKey t r = some k ∧
        (Put t k v).1 = setPayloadAt r v t := by
  induction t using TrieNode.induct with
  | step pre ch pl ps ih =>
    intro p n v h
    rw [Lookup_eq] at h
    cases hs : stripPre pre p with
    | none => simp [hs] at h
    | some q =>
      have hp := (stripPre_eq_some pre p q).1 hs
      cases q with
      | nil =>
        cases ps with
        | false => simp [hs] at h
        | true =>
          simp only [hs, if_true, Option.some.injEq] at h
          subst h
          simp only [List.append_nil] at hp
          subst hp
          exact ⟨[], rfl, rfl, by rw [Put_exact]; rfl⟩
      | cons k rest =>
        simp only [hs] at h
        cases hg : ArrayMap.Get (ch.getD ArrayMap.New) k with
        | none => simp [hg] at h
        | some c =>
          simp only [hg] at h
          cases ch with
          | none => simp [ArrayMap.Get_New] at hg
          | some m =>
            simp only [Option.getD_some] at hg
            obtain ⟨r, hr1, hr2, hr3⟩ :=
              ih m rfl (k, c) (ArrayMap.Get_mem m k c hg) (k :: rest) n v h
            obtain ⟨i, hi, hu⟩ := ArrayMap.update_eq_set m k c hg
            have hch : childAt (TrieNode.mk pre (some m) pl ps) i = some c :=
              (childAt_eq_some pre (some m) pl ps i c).2 ⟨m, k, rfl, hi⟩
            refine ⟨i :: r, ?_, ?_, ?_⟩
            · simp only [nodeAt, hch]; exact hr1
            · simp only [fullKey, hch] at hr2 ⊢
              simp [hr2, Prefix, hp]
            · subst hp
              rw [Put_below]
              simp only [Option.getD_some, hg, setPayloadAt, Children, hi, Prefix, Payload,
                PayloadSet, hu]
              simp only at hr3
              rw [hr3]

/-- C5. Overwrite, last write wins: in a trie `t` obtained from
`NewTrieRoot()` by `Put` calls, after `Put(k, v₁)` and then `Put(k, v₂)`
the result equals that of the single call `Put(k, v₂)` on `t`; the second
`Put` replaces the `Payload` of the node at one route `r`, a payload-set node
with full key `k`, and changes nothing else; afterwards that node holds `v₂`
with `PayloadSet` true, and it is the only node whose full key is `k`. -/
theorem Put_twice_last_wins (ops : List (List K × P)) (k : List K) (v₁ v₂ : P) :
    Put (Put (putAll ops) k v₁).1 k v₂ = Put (putAll ops) k v₂ ∧
    ∃ r n₁, nodeAt (Put (putAll ops) k v₁).1 r = some n₁ ∧ n₁.PayloadSet = true ∧
      fullKey (Put (putAll ops) k v₁).1 r = some k ∧
      (Put (Put (putAll ops) k v₁).1 k v₂).1 =
        setPayloadAt r v₂ (Put (putAll ops) k v₁).1 ∧
      nodeAt (Put (Put (putAll ops) k v₁).1 k v₂).1 r =
        some (TrieNode.mk n₁.Prefix n₁.Children v₂ true) ∧
      fullKey (Put (Put (putAll ops) k v₁).1 k v₂).1 r = some k ∧
      ∀ r', fullKey (Put (Put (putAll ops) k v₁).1 k v₂).1 r' = some k → r' = r := by
  refine ⟨Put_Put_same _ k v₁ v₂, ?_⟩
  obtain ⟨n₁, hl, hps, _⟩ := Lookup_Put_self (putAll ops) k v₁
  obtain ⟨r, hr1, hr2, hr3⟩ := Put_eq_setPayloadAt _ k n₁ v₂ hl
  have hwf : WF (Put (Put (putAll ops) k v₁).1 k v₂).1 :=
    WF_Put _ (WF_Put _ (WF_putAll ops) k v₁) k v₂
  have hn2 := nodeAt_setPayloadAt r v₂ _ n₁ hr1
  have hk2 := fullKey_setPayloadAt r v₂ _ k hr2
  rw [← hr3] at hn2 hk2
  rw [hps] at hn2
  refine ⟨r, n₁, hr1, hps, hr2, hr3, hn2, hk2, ?_⟩
  intro r' hr'
  exact route_unique r' _ r k hwf hr' hk2

end Overwrite

/-! ## Traversal -/

section TraverseRoutes

variable {K P : Type}

mutual
/-- The depth-first pre-order listing of a trie, as routes: a node before its
children, the children in the iteration order of the child mapping. -/
def preorder : TrieNode K P → List (List Nat)
  | TrieNode.mk _ ch _ _ =>
    [] :: (match ch with
      | none => []
      | some m => preorderChildren m 0)
/-- The pre-order listings of the children `es`, the first of which sits at
position `i` of its parent. -/
def preorderChildren : List (K × TrieNode K P) → Nat → List (List Nat)
  | [], _ => []
  | (_, c) :: es, i => (preorder c).map (fun r => i :: r) ++ preorderChildren es (i + 1)
end

/-- The nodes on a route, from `t` down to and including the node at the route. -/
def nodesAlong : TrieNode K P → List Nat → List (TrieNode K P)
  | t, [] => [t]
  | t, i :: r =>
    match childAt t i with
    | some c => t :: nodesAlong c r
    | none => [t]

/-- Whether the node at a route exists and has `PayloadSet` true. -/
def payloadSetAt (t : TrieNode K P) (r : List Nat) : Bool :=
  match nodeAt t r with
  | some n => n.PayloadSet
  | none => false

/-- The callback arguments for the node at route `r` of `t`, when `traverse` is
called on `t` with arguments `pfx` and `path`: the prefixes of the strict
ancestors are added to `pfx` and the nodes on the route to `path`. -/
def callAt (t : TrieNode K P) (pfx : List (List K)) (path : List (TrieNode K P))
    (r : List Nat) : Call K P :=
  (pfx ++ ((nodesAlong t r).dropLast).map Prefix, path ++ nodesAlong t r)

theorem nodesAlong_ne_nil (t : TrieNode K P) (r : List Nat) : nodesAlong t r ≠ [] := by
  cases r with
  | nil => simp [nodesAlong]
  | cons i r =>
    simp only [nodesAlong]
    cases childAt t i <;> simp

theorem childAt_append (pre : List K) (front es : ArrayMap K (TrieNode K P)) (k : K)
    (c : TrieNode K P) (pl : P) (ps : Bool) :
    childAt (TrieNode.mk pre (some (front ++ (k, c) :: es)) pl ps) front.length = some c := by
  have h : (front ++ (k, c) :: es).get? front.length = some (k, c) := by
    simp only [List.get?_eq_getElem?]
    rw [List.getElem?_append_right (Nat.le_refl _)]
    simp
  simp only [childAt, Children, h, Option.map_some']

theorem traverseChildren_routes (pre : List K) (m : ArrayMap K (TrieNode K P)) (pl : P)
    (ps : Bool) (pfx : List (List K)) (path : List (TrieNode K P))
    (ih : ∀ e ∈ m, ∀ (pfx' : List (List K)) (path' : List (TrieNode K P)),
      traverse e.2 pfx' path' = ((preorder e.2).filter (payloadSetAt e.2)).map
        (callAt e.2 pfx' path')) :
    ∀ (es front : ArrayMap K (TrieNode K P)), m = front ++ es →
      traverseChildren es (pfx ++ [pre]) (path ++ [TrieNode.mk pre (some m) pl ps]) =
        ((preorderChildren es front.length).filter
          (payloadSetAt (TrieNode.mk pre (some m) pl ps))).map
          (callAt (TrieNode.mk pre (some m) pl ps) pfx path) := by
  intro es
  induction es with
  | nil => intro front _; simp [traverseChildren, preorderChildren]
  | cons e es ihes =>
    intro front hm
    obtain ⟨k, c⟩ := e
    have hmem : (k, c) ∈ m := by rw [hm]; simp
    have hch : childAt (TrieNode.mk pre (some m) pl ps) front.length = some c := by
      rw [hm]; exact childAt_append pre front es k c pl ps
    have hrest := ihes (front ++ [(k, c)]) (by rw [hm]; simp)
    simp only [List.length_append, List.length_singleton] at hrest
    simp only [traverseChildren, preorderChildren, List.filter_append, List.map_append, hrest,
      ih (k, c) hmem, List.filter_map, List.map_map]
    congr 1
    have hfilter : (payloadSetAt (TrieNode.mk pre (some m) pl ps) ∘ fun r => front.length :: r) =
        payloadSetAt c := by
      funext r
      simp [payloadSetAt, nodeAt, hch]
    rw [hfilter]
    apply List.map_congr_left
    intro r _
    simp only [Function.comp, callAt, nodesAlong, hch,
      List.dropLast_cons_of_ne_nil (nodesAlong_ne_nil c r), List.map_cons, Prefix,
      List.append_assoc, List.singleton_append]

/-- The callback invocations of `traverse`: one for each payload-set node, in
pre-order, with the arguments `callAt` describes. -/
theorem traverse_eq (t : TrieNode K P) :
    ∀ (pfx : List (List K)) (path : List (TrieNode K P)),
      traverse t pfx path = ((preorder t).filter (payloadSetAt t)).map (callAt t pfx path) := by
  induction t using TrieNode.induct with
  | step pre ch pl ps ih =>
    intro pfx path
    have hhead : payloadSetAt (TrieNode.mk pre ch pl ps) [] = ps := rfl
    have hcall : callAt (TrieNode.mk pre ch pl ps) pfx path [] =
        (pfx, path ++ [TrieNode.mk pre ch pl ps]) := by
      simp [callAt, nodesAlong]
    unfold traverse preorder
    cases ch with
    | none =>
      cases ps <;> simp [List.filter_cons, hhead, hcall]
    | some m =>
      have hch := traverseChildren_routes pre m pl ps pfx path (ih m rfl) m [] rfl
      simp only [List.length_nil] at hch
      by_cases hlen : ArrayMap.Len m ≠ 0
      · dsimp only
        rw [if_pos hlen, hch]
        cases ps <;> simp [List.filter_cons, hhead, hcall]
      · have hm : m = [] := by
          simp only [ArrayMap.Len, ne_eq, not_not] at hlen
          exact List.length_eq_zero.1 hlen
        subst hm
        cases ps <;> simp [List.filter_cons, hhead, hcall, preorderChildren, ArrayMap.Len]

/-- The callback invocations of `Traverse`. -/
theorem Traverse_eq (t : TrieNode K P) :
    Traverse t = ((preorder t).filter (payloadSetAt t)).map (callAt t [] []) :=
  traverse_eq t [] []

end TraverseRoutes

section PreorderFacts

variable {K P : Type}

theorem head_preorderChildren (es : ArrayMap K (TrieNode K P)) :
    ∀ (i : Nat) (r : List Nat), r ∈ preorderChildren es i →
      ∃ j r', r = j :: r' ∧ i ≤ j := by
  induction es with
  | nil => intro i r h; simp [preorderChildren] at h
  | cons e es ih =>
    intro i r h
    obtain ⟨k, c⟩ := e
    simp only [preorderChildren, List.mem_append, List.mem_map] at h
    rcases h with ⟨r', _, rfl⟩ | h
    · exact ⟨i, r', rfl, Nat.le_refl _⟩
    · obtain ⟨j, r', hr, hj⟩ := ih (i + 1) r h
      exact ⟨j, r', hr, by omega⟩

theorem nodup_preorderChildren (es : ArrayMap K (TrieNode K P))
    (ih : ∀ e ∈ es, (preorder e.2).Nodup) :
    ∀ i : Nat, (preorderChildren es i).Nodup := by
  induction es with
  | nil => intro i; simp [preorderChildren]
  | cons e es ihes =>
    intro i
    obtain ⟨k, c⟩ := e
    simp only [preorderChildren]
    rw [List.nodup_append]
    refine ⟨?_, ihes (fun e he => ih e (List.mem_cons_of_mem _ he)) (i + 1), ?_⟩
    · exact (ih (k, c) (List.mem_cons_self _ _)).map (fun a b h => by injection h)
    · intro r h1 h2
      simp only [List.mem_map] at h1
      obtain ⟨r', _, rfl⟩ := h1
      obtain ⟨j, r'', hr, hj⟩ := head_preorderChildren es (i + 1) _ h2
      injection hr with h3 _
      omega

/-- The pre-order listing names no route twice. -/
theorem nodup_preorder (t : TrieNode K P) : (preorder t).Nodup := by
  induction t using TrieNode.induct with
  | step pre ch pl ps ih =>
    unfold preorder
    cases ch with
    | none => simp
    | some m =>
      simp only [List.nodup_cons]
      refine ⟨?_, nodup_preorderChildren m (ih m rfl) 0⟩
      intro h
      obtain ⟨j, r', hr, _⟩ := head_preorderChildren m 0 _ h
      cases hr

theorem mem_preorderChildren (es : ArrayMap K (TrieNode K P))
    (ih : ∀ e ∈ es, ∀ r, r ∈ preorder e.2 ↔ (nodeAt e.2 r).isSome = true) :
    ∀ (i : Nat) (r : List Nat), r ∈ preorderChildren es i ↔
      ∃ j r' e, es.get? j = some e ∧ r = (i + j) :: r' ∧ (nodeAt e.2 r').isSome = true := by
  induction es with
  | nil => intro i r; simp [preorderChildren]
  | cons e es ihes =>
    intro i r
    obtain ⟨k, c⟩ := e
    have ih' := ihes (fun e he => ih e (List.mem_cons_of_mem _ he)) (i + 1) r
    have ihc := ih (k, c) (List.mem_cons_self _ _)
    simp only [preorderChildren, List.mem_append, List.mem_map, ih']
    constructor
    · rintro (⟨r', hr', rfl⟩ | ⟨j, r', e, hj, rfl, hn⟩)
      · exact ⟨0, r', (k, c), rfl, rfl, (ihc r').1 hr'⟩
      · exact ⟨j + 1, r', e, by simpa using hj, by congr 1; omega, hn⟩
    · rintro ⟨j, r', e, hj, rfl, hn⟩
      cases j with
      | zero =>
        simp only [List.get?_cons_zero, Option.some.injEq] at hj
        subst hj
        exact Or.inl ⟨r', (ihc r').2 hn, rfl⟩
      | succ j =>
        simp only [List.get?_cons_succ] at hj
        exact Or.inr ⟨j, r', e, hj, by congr 1; omega, hn⟩

/-- The pre-order listing names exactly the routes that lead to a node. -/
theorem mem_preorder (t : TrieNode K P) :
    ∀ r : List Nat, r ∈ preorder t ↔ (nodeAt t r).isSome = true := by
  induction t using TrieNode.induct with
  | step pre ch pl ps ih =>
    intro r
    unfold preorder
    cases ch with
    | none =>
      cases r with
      | nil => simp [nodeAt]
      | cons i r => simp [nodeAt, childAt, Children]
    | some m =>
      cases r with
      | nil => simp [nodeAt]
      | cons i r =>
        simp only [List.mem_cons, List.cons_ne_nil, false_or, reduceCtorEq,
          mem_preorderChildren m (ih m rfl) 0, Nat.zero_add, List.cons.injEq]
        simp only [nodeAt, childAt, Children]
        constructor
        · rintro ⟨j, r', e, hj, ⟨rfl, rfl⟩, hn⟩
          rw [List.get?_eq_getElem?] at hj
          simpa [hj] using hn
        · intro h
          cases hi : m.get? i with
          | none =>
            rw [List.get?_eq_getElem?] at hi
            simp [hi] at h
          | some e =>
            simp only [hi, Option.map_some'] at h
            exact ⟨i, r, e, hi, ⟨rfl, rfl⟩, h⟩

theorem head_nodesAlong (t : TrieNode K P) (r : List Nat) :
    (nodesAlong t r).head? = some t := by
  cases r with
  | nil => rfl
  | cons i r =>
    simp only [nodesAlong]
    cases childAt t i <;> rfl

theorem getLast_nodesAlong (r : List Nat) :
    ∀ (t n : TrieNode K P), nodeAt t r = some n → (nodesAlong t r).getLast? = some n := by
  induction r with
  | nil =>
    intro t n h
    simp only [nodeAt, Option.some.injEq] at h
    subst h; rfl
  | cons i r ih =>
    intro t n h
    simp only [nodeAt] at h
    cases hc : childAt t i with
    | none => simp [hc] at h
    | some c =>
      simp only [hc] at h
      simp only [nodesAlong, hc]
      have hl := ih c n h
      cases hn : nodesAlong c r with
      | nil => exact absurd hn (nodesAlong_ne_nil c r)
      | cons x xs =>
        rw [hn] at hl
        rw [List.getLast?_cons_cons]
        exact hl

theorem chain_nodesAlong (r : List Nat) :
    ∀ (t : TrieNode K P) (i : Nat) (a b : TrieNode K P),
      (nodesAlong t r).get? i = some a → (nodesAlong t r).get? (i + 1) = some b →
      ∃ j, childAt a j = some b := by
  induction r with
  | nil =>
    intro t i a b _ hb
    simp [nodesAlong] at hb
  | cons j r ih =>
    intro t i a b ha hb
    simp only [nodesAlong] at ha hb
    cases hc : childAt t j with
    | none => simp [hc] at hb
    | some c =>
      simp only [hc, List.get?_cons_succ] at ha hb
      cases i with
      | zero =>
        simp only [List.get?_cons_zero, Option.some.injEq] at ha
        subst ha
        have hh := head_nodesAlong c r
        cases hn : nodesAlong c r with
        | nil => exact absurd hn (nodesAlong_ne_nil c r)
        | cons x xs =>
          rw [hn] at hh hb
          simp only [List.head?_cons, Option.some.injEq] at hh
          simp only [List.get?_cons_zero, Option.some.injEq] at hb
          subst hh hb
          exact ⟨j, hc⟩
      | succ i =>
        simp only [List.get?_cons_succ] at ha
        exact ih c i a b ha hb

theorem fullKey_nodesAlong (r : List Nat) :
    ∀ (t n : TrieNode K P), nodeAt t r = some n →
      fullKey t r = some ((((nodesAlong t r).dropLast).map Prefix).flatten ++ n.Prefix) := by
  induction r with
  | nil =>
    intro t n h
    simp only [nodeAt, Option.some.injEq] at h
    subst h
    simp [fullKey, nodesAlong]
  | cons i r ih =>
    intro t n h
    simp only [nodeAt] at h
    cases hc : childAt t i with
    | none => simp [hc] at h
    | some c =>
      simp only [hc] at h
      simp only [fullKey, nodesAlong, hc, ih c n h, Option.map_some',
        List.dropLast_cons_of_ne_nil (nodesAlong_ne_nil c r), List.map_cons,
        List.flatten_cons, List.append_assoc]

end PreorderFacts

/-! ## The callback invocations of `Traverse` -/

section TraverseClaims

variable {K P : Type}

/-- Each callback invocation of `Traverse` belongs to a payload-set node, and
carries the prefixes of its strict ancestors and the nodes on its route. -/
theorem mem_Traverse (t : TrieNode K P) (c : Call K P) :
    c ∈ Traverse t ↔ ∃ r n, nodeAt t r = some n ∧ n.PayloadSet = true ∧
      c = (((nodesAlong t r).dropLast).map Prefix, nodesAlong t r) := by
  rw [Traverse_eq]
  simp only [List.mem_map, List.mem_filter, mem_preorder, callAt, List.nil_append]
  constructor
  · rintro ⟨r, ⟨hr, hps⟩, rfl⟩
    cases hn : nodeAt t r with
    | none => simp [hn] at hr
    | some n =>
      simp only [payloadSetAt, hn] at hps
      exact ⟨r, n, hn, hps, rfl⟩
  · rintro ⟨r, n, hn, hps, rfl⟩
    exact ⟨r, ⟨by simp [hn], by simp [payloadSetAt, hn, hps]⟩, rfl⟩

/-- C7. Traversal order and filtering: for every trie, the nodes that
`Traverse` passes as the last element of `path`, in call order, are the nodes
of the depth-first pre-order listing (a node before its children, children in
the child mapping's order) with the payload-unset nodes removed.  The listing
names every node of the trie exactly once, so the callback is invoked once for
every payload-set node, never for a payload-unset one, and the descendants of
a payload-unset node are still visited. -/
theorem Traverse_preorder_filter (t : TrieNode K P) :
    (Traverse t).map (fun c => c.2.getLast?) =
      ((preorder t).filter (payloadSetAt t)).map (nodeAt t) ∧
    (preorder t).Nodup ∧
    (∀ r, r ∈ preorder t ↔ (nodeAt t r).isSome = true) ∧
    (∀ c ∈ Traverse t, ∃ n, c.2.getLast? = some n ∧ n.PayloadSet = true) := by
  refine ⟨?_, nodup_preorder t, mem_preorder t, ?_⟩
  · rw [Traverse_eq, List.map_map]
    apply List.map_congr_left
    intro r hr
    simp only [List.mem_filter] at hr
    cases hn : nodeAt t r with
    | none => simp [payloadSetAt, hn] at hr
    | some n =>
      simp only [Function.comp, callAt, List.nil_append]
      exact getLast_nodesAlong r t n hn
  · intro c hc
    obtain ⟨r, n, hn, hps, rfl⟩ := (mem_Traverse t c).1 hc
    exact ⟨n, getLast_nodesAlong r t n hn, hps⟩

/-- C8. Shape of the traversal arguments: for every invocation
`callback(prefix, path)` made by `Traverse` on a node `t`, `path` is non-empty
and starts with `t`, each `path[i+1]` is a child of `path[i]`,
`len(prefix) = len(path) - 1`, and `prefix[i]` is `path[i].Prefix` for every
`i < len(prefix)`; when the visited node is `t` itself, `prefix` is empty and
`path` is `[t]`. -/
theorem Traverse_args_shape (t : TrieNode K P) (c : Call K P) (hc : c ∈ Traverse t) :
    c.2 ≠ [] ∧ c.2.head? = some t ∧
    (∀ i a b, c.2.get? i = some a → c.2.get? (i + 1) = some b →
      ∃ j, childAt a j = some b) ∧
    c.1.length = c.2.length - 1 ∧
    (∀ i, i < c.1.length → c.1.get? i = (c.2.get? i).map Prefix) ∧
    (c.2.length = 1 → c = ([], [t])) := by
  obtain ⟨r, n, hn, hps, rfl⟩ := (mem_Traverse t c).1 hc
  refine ⟨nodesAlong_ne_nil t r, head_nodesAlong t r, chain_nodesAlong r t, by simp, ?_, ?_⟩
  · intro i hi
    simp only [List.length_map, List.length_dropLast] at hi
    simp only [List.get?_eq_getElem?, List.getElem?_map, List.getElem?_dropLast]
    have : i < (nodesAlong t r).length - 1 := hi
    simp [this]
  · intro hlen
    simp only at hlen
    have hh := head_nodesAlong t r
    cases hl : nodesAlong t r with
    | nil => exact absurd hl (nodesAlong_ne_nil t r)
    | cons x xs =>
      rw [hl] at hh hlen
      simp only [List.head?_cons, Option.some.injEq] at hh
      simp only [List.length_cons, Nat.add_left_eq_self, List.length_eq_zero] at hlen
      subst hh hlen
      rfl

variable [DecidableEq K] [Inhabited P]

/-- C6. Key reconstruction under traversal: in a trie obtained from
`NewTrieRoot()` by a sequence of `Put` calls, for every invocation
`callback(prefix, path)` made by `Traverse` on the root, the concatenation of
the slices of `prefix` followed by the `Prefix` of the last node of `path` is a
key that some `Put` inserted, and the `Payload` of that last node is the
payload given by the last `Put` with that key. -/
theorem Traverse_reconstructs_keys (ops : List (List K × P)) (c : Call K P)
    (hc : c ∈ Traverse (putAll ops)) :
    ∃ n, c.2.getLast? = some n ∧
      (∃ v, (c.1.flatten ++ n.Prefix, v) ∈ ops) ∧
      lastPut ops (c.1.flatten ++ n.Prefix) = some n.Payload := by
  obtain ⟨r, n, hn, hps, rfl⟩ := (mem_Traverse _ c).1 hc
  have hk := fullKey_nodesAlong r _ n hn
  have hl := route_Lookup r _ _ n (WF_putAll ops) hn hps hk
  have hv := val_putAll ops
    ((((nodesAlong (putAll ops) r).dropLast).map Prefix).flatten ++ n.Prefix)
  simp only [val, hl, Option.map_some'] at hv
  refine ⟨n, getLast_nodesAlong r _ n hn, ?_, hv.symm⟩
  rcases lastPutFrom_some_mem none ops _ n.Payload hv.symm with h | h
  · cases h
  · exact ⟨n.Payload, h⟩

/-- C10. Empty-key edge case: in a trie obtained from `NewTrieRoot()` by `Put`
calls, `Put(empty path, v)` on the root sets the root's `Payload` to `v` and
`PayloadSet` to true and changes nothing else: the `Prefix` stays empty and the
child mapping, with all descendants, is the same (on a fresh root it stays
absent); afterwards `Lookup(empty path)` returns the root. -/
theorem Put_empty_key (ops : List (List K × P)) (v : P) :
    Put (putAll ops) [] v = (TrieNode.mk [] (putAll ops).Children v true, none) ∧
    Lookup (Put (putAll ops) [] v).1 [] = some (Put (putAll ops) [] v).1 ∧
    Put (NewTrieRoot : TrieNode K P) [] v = (TrieNode.mk [] none v true, none) := by
  have hpre := Prefix_putAll ops
  have hput : Put (putAll ops) [] v = (TrieNode.mk [] (putAll ops).Children v true, none) := by
    cases ht : putAll ops with
    | mk pre ch pl ps =>
      rw [ht] at hpre
      simp only [Prefix] at hpre
      subst hpre
      rw [Put_exact]
      rfl
  refine ⟨hput, ?_, ?_⟩
  · rw [hput, Lookup_exact]
    rfl
  · unfold NewTrieRoot
    rw [Put_exact]

end TraverseClaims

/-! ## The scenario of the package example -/

section Scenario

/-- The key-value pairs of `Example` in `prefixtrie_test.go`, in the order they
are put. -/
def exampleValues : List (List Char × Nat) :=
  [("abcdef".toList, 2), ("abcdeg".toList, 3), ("abc".toList, 1),
   ("ijkl".toList, 4), ("ijkxy".toList, 6), ("ijklm".toList, 5)]

/-- What `Example` prints for one callback invocation: the prefix chain, and the
`Prefix` and `Payload` of the last node of `path`. -/
def printed (c : Call Char Nat) : List String × Option (String × Nat) :=
  (c.1.map String.mk, c.2.getLast?.map (fun n => (String.mk n.Prefix, n.Payload)))

/-- C9. Concrete scenario: after `Put` of ("abcdef",2), ("abcdeg",3), ("abc",1),
("ijkl",4), ("ijkxy",6), ("ijklm",5) on a new root, `Traverse` makes exactly
six callback invocations, in this order, with prefix chain, own prefix and
payload `[""] | abc : 1`, `["","abc","de"] | f : 2`, `["","abc","de"] | g : 3`,
`["","ijk"] | l : 4`, `["","ijk","l"] | m : 5`, `["","ijk"] | xy : 6`;
`Lookup("abcdef")` returns a node with `Payload` 2 and `Lookup("abcdez")`
returns nil. -/
theorem example_scenario :
    (Traverse (putAll exampleValues)).map printed =
      [([""], some ("abc", 1)),
       (["", "abc", "de"], some ("f", 2)),
       (["", "abc", "de"], some ("g", 3)),
       (["", "ijk"], some ("l", 4)),
       (["", "ijk", "l"], some ("m", 5)),
       (["", "ijk"], some ("xy", 6))] ∧
    (Lookup (putAll exampleValues) "abcdef".toList).map Payload = some 2 ∧
    Lookup (putAll exampleValues) "abcdez".toList = none := by
  refine ⟨by decide, by decide, rfl⟩

/-- C2 at a concrete input: `Put("ab")` splits the node that holds "abc", and
"abc" keeps its payload. -/
theorem Put_keeps_other_keys_witness :
    Lookup (putAll [("abc".toList, 1)]) "abc".toList =
        some (TrieNode.mk "abc".toList none 1 true) ∧
      "ab".toList ≠ "abc".toList ∧
      ∃ n', Lookup (Put (putAll [("abc".toList, 1)]) "ab".toList 2).1 "abc".toList = some n' ∧
        n'.PayloadSet = true ∧ n'.Payload = 1 :=
  ⟨rfl, by decide,
    Put_keeps_other_keys [("abc".toList, 1)] "ab".toList "abc".toList 2 1
      (TrieNode.mk "abc".toList none 1 true) rfl rfl (by decide)⟩

/-- C3 at a concrete input: with only "abcdef" and "abcdeg" stored,
`Lookup("abcde")` returns nil. -/
theorem Lookup_never_inserted_witness :
    (∀ op ∈ [("abcdef".toList, 2), ("abcdeg".toList, 3)], op.1 ≠ "abcde".toList) ∧
      Lookup (putAll [("abcdef".toList, 2), ("abcdeg".toList, 3)]) "abcde".toList = none :=
  ⟨by decide,
    Lookup_never_inserted [("abcdef".toList, 2), ("abcdeg".toList, 3)] "abcde".toList
      (by decide)⟩

/-- The second callback invocation of `Traverse` after `Put("abc", 1)` and
`Put("abd", 2)`: the one for "abd". -/
def secondCall : Call Char Nat :=
  ([[], "ab".toList],
   [putAll [("abc".toList, 1), ("abd".toList, 2)],
    TrieNode.mk "ab".toList
      (some [('c', TrieNode.mk "c".toList none 1 true), ('d', TrieNode.mk "d".toList none 2 true)])
      0 false,
    TrieNode.mk "d".toList none 2 true])

theorem secondCall_mem :
    secondCall ∈ Traverse (putAll [("abc".toList, 1), ("abd".toList, 2)]) :=
  List.Mem.tail _ (List.Mem.head _)

/-- C6 at a concrete input. -/
theorem Traverse_reconstructs_keys_witness :
    secondCall ∈ Traverse (putAll [("abc".toList, 1), ("abd".toList, 2)]) ∧
      ∃ n, secondCall.2.getLast? = some n ∧
        (∃ v, (secondCall.1.flatten ++ n.Prefix, v) ∈
          [("abc".toList, 1), ("abd".toList, 2)]) ∧
        lastPut [("abc".toList, 1), ("abd".toList, 2)] (secondCall.1.flatten ++ n.Prefix) =
          some n.Payload :=
  ⟨secondCall_mem,
    Traverse_reconstructs_keys [("abc".toList, 1), ("abd".toList, 2)] secondCall secondCall_mem⟩

/-- C8 at a concrete input. -/
theorem Traverse_args_shape_witness :
    secondCall ∈ Traverse (putAll [("abc".toList, 1), ("abd".toList, 2)]) ∧
      (secondCall.2 ≠ [] ∧
       secondCall.2.head? = some (putAll [("abc".toList, 1), ("abd".toList, 2)]) ∧
       (∀ i a b, secondCall.2.get? i = some a → secondCall.2.get? (i + 1) = some b →
         ∃ j, childAt a j = some b) ∧
       secondCall.1.length = secondCall.2.length - 1 ∧
       (∀ i, i < secondCall.1.length →
         secondCall.1.get? i = (secondCall.2.get? i).map Prefix) ∧
       (secondCall.2.length = 1 →
         secondCall = ([], [putAll [("abc".toList, 1), ("abd".toList, 2)]]))) :=
  ⟨secondCall_mem,
    Traverse_args_shape (putAll [("abc".toList, 1), ("abd".toList, 2)]) secondCall
      secondCall_mem⟩

end Scenario

/-! ## Run-time faults of `Put` -/

section Checked

/-- The ways a step of `Put` can go wrong at run time: an index expression
`xs[i]` out of range, a slice expression `xs[l:]` or `xs[:l]` out of range, and,
in this model only, the loop using up the fuel that bounds it. -/
inductive Fault where
  | indexOutOfRange
  | sliceOutOfRange
  | outOfFuel
  deriving DecidableEq, Repr

/-- The index expression `xs[i]`, which panics when `i` is out of range. -/
def indexAt {α : Type} (xs : List α) (i : Nat) : Except Fault α :=
  match xs.get? i with
  | some x => .ok x
  | none => .error Fault.indexOutOfRange

/-- The slice expression `xs[l:]`, which panics when `l > len(xs)`. -/
def sliceFrom {α : Type} (xs : List α) (l : Nat) : Except Fault (List α) :=
  if l ≤ xs.length then .ok (xs.drop l) else .error Fault.sliceOutOfRange

/-- The slice expression `xs[:l]`, which panics when `l > len(xs)`. -/
def sliceTo {α : Type} (xs : List α) (l : Nat) : Except Fault (List α) :=
  if l ≤ xs.length then .ok (xs.take l) else .error Fault.sliceOutOfRange

variable {K P : Type} [DecidableEq K]

/-- The loop `for l < len(tr.Prefix) && l < len(path) && tr.Prefix[l] == path[l] { l++ }`
with its index expressions checked, run from the current `l` for at most `fuel`
evaluations of the condition. -/
def commonLoop (pre path : List K) : Nat → Nat → Except Fault Nat
  | 0, _ => .error Fault.outOfFuel
  | fuel + 1, l =>
    if l < pre.length ∧ l < path.length then
      match indexAt pre l, indexAt path l with
      | .ok a, .ok b => if a = b then commonLoop pre path fuel (l + 1) else .ok l
      | .error e, _ => .error e
      | _, .error e => .error e
    else .ok l

variable [Inhabited P]

mutual
/-- The method `Put` with every index and slice expression checked: the result
is a fault, or the receiver after the call together with the returned `err`. -/
def PutChecked : TrieNode K P → List K → P → Except Fault (TrieNode K P × Option Error)
  | TrieNode.mk pre ch pl ps, path, payload =>
    match commonLoop pre path (pre.length + 1) 0 with
    | .error e => .error e
    | .ok l =>
      if l = pre.length then
        match sliceFrom path l with
        | .error e => .error e
        | .ok rest =>
          if rest.length = 0 then .ok (TrieNode.mk pre ch payload true, none)
          else
            match indexAt rest 0 with
            | .error e => .error e
            | .ok k =>
              match ch with
              | none =>
                .ok (TrieNode.mk pre
                  (some (ArrayMap.Put ArrayMap.New k (TrieNode.mk rest none payload true)))
                  pl ps, none)
              | some m =>
                match putChildChecked m k rest payload with
                | some (.ok (m', err)) => .ok (TrieNode.mk pre (some m') pl ps, err)
                | some (.error e) => .error e
                | none =>
                  .ok (TrieNode.mk pre
                    (some (ArrayMap.Put m k (TrieNode.mk rest none payload true)))
                    pl ps, none)
      else if l < pre.length then
        match sliceFrom pre l with
        | .error e => .error e
        | .ok pre1 =>
          let node1 : TrieNode K P := TrieNode.mk pre1 ch pl ps
          match sliceFrom path l with
          | .error e => .error e
          | .ok s =>
            match sliceTo pre l, indexAt pre1 0 with
            | .error e, _ => .error e
            | _, .error e => .error e
            | .ok pre0, .ok k1 =>
              if s.length = 0 then
                .ok (TrieNode.mk pre0 (some (ArrayMap.Put ArrayMap.New k1 node1)) payload true,
                  none)
              else
                match indexAt s 0 with
                | .error e => .error e
                | .ok k2 =>
                  .ok (TrieNode.mk pre0
                    (some (ArrayMap.Put (ArrayMap.Put ArrayMap.New k1 node1) k2
                      (TrieNode.mk s none payload true)))
                    default false, none)
      else .ok (TrieNode.mk pre ch pl ps, none)
/-- The steps `child, ok := tr.Children.Get(path[0]); if ok { return child.Put(path, payload) }`
of `PutChecked`: `none` when the mapping has no entry for the key. -/
def putChildChecked : ArrayMap K (TrieNode K P) → K → List K → P →
    Option (Except Fault (ArrayMap K (TrieNode K P) × Option Error))
  | [], _, _, _ => none
  | (k', c) :: es, k, path, payload =>
    if k' = k then
      match PutChecked c path payload with
      | .ok (c', err) => some (.ok ((k', c') :: es, err))
      | .error e => some (.error e)
    else
      match putChildChecked es k path payload with
      | some (.ok (es', err)) => some (.ok ((k', c) :: es', err))
      | some (.error e) => some (.error e)
      | none => none
end

theorem indexAt_append_cons {α : Type} (cm : List α) (a : α) (xs : List α) :
    indexAt (cm ++ a :: xs) cm.length = .ok a := by
  have h : (cm ++ a :: xs).get? cm.length = some a := by
    simp only [List.get?_eq_getElem?]
    rw [List.getElem?_append_right (Nat.le_refl _)]
    simp
  simp only [indexAt, h]

omit [Inhabited P] in
theorem commonLoop_append (fuel : Nat) :
    ∀ (cm xs ys : List K), xs.length < fuel →
      commonLoop (cm ++ xs) (cm ++ ys) fuel cm.length = .ok (cm.length + commonLen xs ys) := by
  induction fuel with
  | zero => intro cm xs ys h; omega
  | succ fuel ih =>
    intro cm xs ys h
    cases xs with
    | nil => simp [commonLoop, commonLen_nil_left]
    | cons a xs =>
      cases ys with
      | nil => simp [commonLoop, commonLen_nil_right]
      | cons b ys =>
        simp only [List.length_cons] at h
        simp only [commonLoop, List.length_append, List.length_cons, indexAt_append_cons]
        have hc : cm.length < cm.length + (xs.length + 1) ∧
            cm.length < cm.length + (ys.length + 1) := ⟨by omega, by omega⟩
        rw [if_pos hc]
        by_cases hab : a = b
        · subst hab
          have := ih (cm ++ [a]) xs ys (by omega)
          simp only [List.append_assoc, List.singleton_append, List.length_append,
            List.length_singleton] at this
          simp only [if_true, this, commonLen]
          congr 1
          omega
        · simp [hab, commonLen]

omit [Inhabited P] in
/-- The checked loop ends without a fault, within its fuel, at the length of the
common leading run. -/
theorem commonLoop_eq (pre path : List K) :
    commonLoop pre path (pre.length + 1) 0 = .ok (commonLen pre path) := by
  have := commonLoop_append (pre.length + 1) [] pre path (by omega)
  simpa using this

theorem putChildChecked_eq (m : ArrayMap K (TrieNode K P))
    (ih : ∀ e ∈ m, ∀ (path : List K) (v : P), PutChecked e.2 path v = .ok (Put e.2 path v))
    (k : K) (path : List K) (v : P) :
    putChildChecked m k path v = (putChild m k path v).map Except.ok := by
  induction m with
  | nil => rfl
  | cons e es ihes =>
    obtain ⟨k', c⟩ := e
    have hc := ih (k', c) (List.mem_cons_self _ _) path v
    have hes := ihes (fun e he => ih e (List.mem_cons_of_mem _ he))
    by_cases hk : k' = k
    · simp only [putChildChecked, putChild, hk, if_true, hc, Option.map_some']
    · simp only [putChildChecked, putChild, hk, if_false, hes]
      cases putChild es k path v <;> rfl

/-- The checked `Put` never faults, and its result is that of `Put`. -/
theorem PutChecked_eq (t : TrieNode K P) :
    ∀ (path : List K) (v : P), PutChecked t path v = .ok (Put t path v) := by
  induction t using TrieNode.induct with
  | step pre ch pl ps ih =>
    intro path v
    have hle1 := commonLen_le_left pre path
    have hle2 := commonLen_le_right pre path
    rw [PutChecked, Put, commonLoop_eq]
    simp only [sliceFrom, hle2, if_true]
    by_cases hl : commonLen pre path = pre.length
    · simp only [hl, if_true]
      cases hd : List.drop pre.length path with
      | nil => simp
      | cons k rest =>
        simp only [List.length_cons, Nat.add_one_ne_zero, if_false, indexAt,
          List.get?_cons_zero]
        cases ch with
        | none => rfl
        | some m =>
          simp only [putChildChecked_eq m (ih m rfl)]
          cases putChild m k (k :: rest) v <;> rfl
    · have hlt : commonLen pre path < pre.length := by omega
      have h0 := drop_length_pos pre _ hlt
      have hidx : indexAt (List.drop (commonLen pre path) pre) 0 =
          .ok ((List.drop (commonLen pre path) pre)[0]) := by
        simp only [indexAt, List.get?_eq_getElem?, List.getElem?_eq_getElem h0]
      simp only [hl, if_false, hlt, if_true, dif_pos, sliceTo, hle1, hidx]
      cases hd : List.drop (commonLen pre path) path with
      | nil => simp
      | cons k rest =>
        simp only [List.length_cons, Nat.add_one_ne_zero, if_false, indexAt,
          List.get?_cons_zero]

/-- The error result of `Put` is always nil. -/
theorem Put_err (t : TrieNode K P) : ∀ (path : List K) (v : P), (Put t path v).2 = none := by
  induction t using TrieNode.induct with
  | step pre ch pl ps ih =>
    intro path v
    rcases prefix_cases pre path with
      ⟨rest, rfl⟩ | ⟨a, pre', rfl⟩ | ⟨cm, a, pre', b, rest, rfl, rfl, hab⟩
    · cases rest with
      | nil => rw [List.append_nil, Put_exact]
      | cons k rest =>
        rw [Put_below]
        cases hg : ArrayMap.Get (ch.getD ArrayMap.New) k with
        | none => rfl
        | some c =>
          cases ch with
          | none => simp [ArrayMap.Get_New] at hg
          | some m =>
            simp only [Option.getD_some] at hg
            exact ih m rfl (k, c) (ArrayMap.Get_mem m k c hg) (k :: rest) v
    · rw [Put_inside]
    · rw [Put_part cm a b pre' rest hab]

/-- C11. `Put` never fails: on every trie obtained from `NewTrieRoot()` by `Put`
calls, with every path (the empty one included) and every payload, `Put` with
all its index and slice expressions checked ends without a fault and returns a
nil error; so it never returns `ErrInvalidNode`. -/
theorem Put_never_fails (ops : List (List K × P)) (path : List K) (v : P) :
    PutChecked (putAll ops) path v = .ok ((Put (putAll ops) path v).1, none) ∧
    (Put (putAll ops) path v).2 = none ∧
    (Put (putAll ops) path v).2 ≠ some Error.ErrInvalidNode := by
  have he := Put_err (putAll ops) path v
  refine ⟨?_, he, by rw [he]; exact fun h => by cases h⟩
  rw [PutChecked_eq, ← he]

end Checked

/-! ## Counting nodes and callback invocations -/

section NodeCount

variable {K P : Type}

mutual
/-- The number of nodes of the trie rooted at a node: the node itself and the
nodes of the tries rooted at its children. -/
def nodeCount : TrieNode K P → Nat
  | TrieNode.mk _ ch _ _ =>
    1 + (match ch with
      | none => 0
      | some m => nodeCountChildren m)
/-- The number of nodes of the tries rooted at the children `es`. -/
def nodeCountChildren : List (K × TrieNode K P) → Nat
  | [] => 0
  | (_, c) :: es => nodeCount c + nodeCountChildren es
end

mutual
/-- The number of nodes with `PayloadSet` true in the trie rooted at a node. -/
def payloadCount : TrieNode K P → Nat
  | TrieNode.mk _ ch _ ps =>
    (if ps then 1 else 0) + (match ch with
      | none => 0
      | some m => payloadCountChildren m)
/-- The number of nodes with `PayloadSet` true in the tries rooted at the
children `es`. -/
def payloadCountChildren : List (K × TrieNode K P) → Nat
  | [] => 0
  | (_, c) :: es => payloadCount c + payloadCountChildren es
end

theorem length_traverseChildren (m : ArrayMap K (TrieNode K P))
    (ih : ∀ e ∈ m, ∀ (pfx : List (List K)) (path : List (TrieNode K P)),
      (traverse e.2 pfx path).length = payloadCount e.2)
    (pfx : List (List K)) (path : List (TrieNode K P)) :
    (traverseChildren m pfx path).length = payloadCountChildren m := by
  induction m with
  | nil => rfl
  | cons e es ihes =>
    obtain ⟨k, c⟩ := e
    simp only [traverseChildren, payloadCountChildren, List.length_append,
      ih (k, c) (List.mem_cons_self _ _),
      ihes (fun e he => ih e (List.mem_cons_of_mem _ he))]

/-- The method `traverse` makes as many callback invocations as the trie has
payload-set nodes. -/
theorem length_traverse (t : TrieNode K P) :
    ∀ (pfx : List (List K)) (path : List (TrieNode K P)),
      (traverse t pfx path).length = payloadCount t := by
  induction t using TrieNode.induct with
  | step pre ch pl ps ih =>
    intro pfx path
    unfold traverse payloadCount
    cases ch with
    | none => cases ps <;> rfl
    | some m =>
      dsimp only
      by_cases hlen : ArrayMap.Len m ≠ 0
      · rw [if_pos hlen, List.length_append, length_traverseChildren m (ih m rfl)]
        cases ps <;> rfl
      · have hm : m = [] := by
          simp only [ArrayMap.Len, ne_eq, not_not] at hlen
          exact List.length_eq_zero.1 hlen
        subst hm
        cases ps <;> rfl

theorem payloadCount_le_nodeCount (t : TrieNode K P) : payloadCount t ≤ nodeCount t := by
  induction t using TrieNode.induct with
  | step pre ch pl ps ih =>
    unfold payloadCount nodeCount
    cases ch with
    | none => cases ps <;> simp
    | some m =>
      have h : payloadCountChildren m ≤ nodeCountChildren m := by
        have ih' := ih m rfl
        clear ih
        induction m with
        | nil => exact Nat.le_refl _
        | cons e es ihes =>
          obtain ⟨k, c⟩ := e
          have h1 := ih' (k, c) (List.mem_cons_self _ _)
          have h2 := ihes (fun e he => ih' e (List.mem_cons_of_mem _ he))
          simp only [payloadCountChildren, nodeCountChildren]
          exact Nat.add_le_add h1 h2
      dsimp only
      cases ps
      · simp only [Bool.false_eq_true, if_false]; omega
      · simp only [if_true]; omega

theorem length_preorderChildren (m : ArrayMap K (TrieNode K P))
    (ih : ∀ e ∈ m, (preorder e.2).length = nodeCount e.2) (i : Nat) :
    (preorderChildren m i).length = nodeCountChildren m := by
  induction m generalizing i with
  | nil => rfl
  | cons e es ihes =>
    obtain ⟨k, c⟩ := e
    simp only [preorderChildren, nodeCountChildren, List.length_append, List.length_map,
      ih (k, c) (List.mem_cons_self _ _),
      ihes (fun e he => ih e (List.mem_cons_of_mem _ he))]

/-- The pre-order listing has one route for each node counted by `nodeCount`. -/
theorem length_preorder (t : TrieNode K P) : (preorder t).length = nodeCount t := by
  induction t using TrieNode.induct with
  | step pre ch pl ps ih =>
    unfold preorder nodeCount
    cases ch with
    | none => rfl
    | some m =>
      simp only [List.length_cons, length_preorderChildren m (ih m rfl) 0]
      omega

/-- C12, as amended. The callback is called once for each node whose
`PayloadSet` is true: for every trie the number of callback invocations made
by `Traverse` is the number of payload-set nodes of the trie rooted at the
receiver, which is at most the number of its nodes, and each invocation
receives the slice of key prefixes and the path from the root to its node. -/
theorem Traverse_count_payload_nodes (t : TrieNode K P) :
    (Traverse t).length = payloadCount t ∧
    payloadCount t ≤ nodeCount t ∧
    nodeCount t = (preorder t).length ∧
    ∀ c ∈ Traverse t, ∃ r n, nodeAt t r = some n ∧ n.PayloadSet = true ∧
      c = (((nodesAlong t r).dropLast).map Prefix, nodesAlong t r) :=
  ⟨length_traverse t [] [], payloadCount_le_nodeCount t, (length_preorder t).symm,
    fun c hc => (mem_Traverse t c).1 hc⟩

/-- C12 as stated fails: after the six `Put` calls of the package example the
trie has nine nodes and `Traverse` makes six callback invocations. -/
theorem Traverse_count_counterexample :
    (Traverse (putAll exampleValues)).length = 6 ∧
    nodeCount (putAll exampleValues) = 9 ∧
    (Traverse (putAll exampleValues)).length ≠ nodeCount (putAll exampleValues) := by
  refine ⟨by decide, by decide, by decide⟩

end NodeCount

/-! ## The structural invariants, node by node -/

section Structure

variable {K P : Type}

/-- Every node of a trie that satisfies the invariant satisfies it. -/
theorem WF_nodeAt (r : List Nat) :
    ∀ (t n : TrieNode K P), WF t → nodeAt t r = some n → WF n := by
  induction r with
  | nil =>
    intro t n hwf h
    simp only [nodeAt, Option.some.injEq] at h
    subst h
    exact hwf
  | cons i r ih =>
    intro t n hwf h
    obtain ⟨pre, ch, pl, ps⟩ := t
    simp only [nodeAt] at h
    cases hc : childAt (TrieNode.mk pre ch pl ps) i with
    | none => simp [hc] at h
    | some c =>
      simp only [hc] at h
      obtain ⟨m, k, hm, hi⟩ := (childAt_eq_some pre ch pl ps i c).1 hc
      subst hm
      exact ih c n (hwf.child (k, c) (List.get?_mem hi)) h

/-- In a trie that satisfies the invariant every node below the root has a
non-empty `Prefix`. -/
theorem Prefix_ne_nil_of_WF (r : List Nat) :
    ∀ (t n : TrieNode K P) (i : Nat), WF t → nodeAt t (i :: r) = some n →
      n.Prefix ≠ [] := by
  induction r with
  | nil =>
    intro t n i hwf h
    obtain ⟨pre, ch, pl, ps⟩ := t
    simp only [nodeAt] at h
    cases hc : childAt (TrieNode.mk pre ch pl ps) i with
    | none => simp [hc] at h
    | some c =>
      simp only [hc, Option.some.injEq] at h
      subst h
      obtain ⟨m, k, hm, hi⟩ := (childAt_eq_some pre ch pl ps i c).1 hc
      subst hm
      obtain ⟨rest, hrest⟩ := hwf.keys.2 (k, c) (List.get?_mem hi)
      simp only at hrest
      rw [hrest]
      exact List.cons_ne_nil _ _
  | cons j r ih =>
    intro t n i hwf h
    obtain ⟨pre, ch, pl, ps⟩ := t
    rw [nodeAt] at h
    cases hc : childAt (TrieNode.mk pre ch pl ps) i with
    | none => simp [hc] at h
    | some c =>
      simp only [hc] at h
      obtain ⟨m, k, hm, hi⟩ := (childAt_eq_some pre ch pl ps i c).1 hc
      subst hm
      exact ih c n j (hwf.child (k, c) (List.get?_mem hi)) h

variable [DecidableEq K] [Inhabited P]

/-- C13. Structural invariants are kept by `Put`: in every trie obtained from
`NewTrieRoot()` by a finite sequence of `Put` calls on the root, (1) the root's
`Prefix` is empty, (2) every non-root node's `Prefix` is non-empty, (3) every
child is stored in its parent's child mapping under the first element of the
child's `Prefix`, and (4) no two children of the same node have prefixes that
start with the same element (nor the same key). -/
theorem Put_keeps_structure (ops : List (List K × P)) :
    (putAll ops).Prefix = [] ∧
    (∀ r n, r ≠ [] → nodeAt (putAll ops) r = some n → n.Prefix ≠ []) ∧
    (∀ r n m, nodeAt (putAll ops) r = some n → n.Children = some m →
      ∀ e ∈ m, e.2.Prefix.head? = some e.1) ∧
    (∀ r n m, nodeAt (putAll ops) r = some n → n.Children = some m →
      (m.map Prod.fst).Nodup ∧
      ∀ i j ei ej, m.get? i = some ei → m.get? j = some ej →
        ei.2.Prefix.head? = ej.2.Prefix.head? → i = j) := by
  have hwf := WF_putAll ops
  have hkeys : ∀ r n m, nodeAt (putAll ops) r = some n → n.Children = some m →
      (m.map Prod.fst).Nodup ∧ ∀ e ∈ m, ∃ rest, e.2.Prefix = e.1 :: rest := by
    intro r n m hn hm
    have hwn := WF_nodeAt r _ n hwf hn
    obtain ⟨pre, ch, pl, ps⟩ := n
    simp only [Children] at hm
    subst hm
    exact hwn.keys
  refine ⟨Prefix_putAll ops, ?_, ?_, ?_⟩
  · intro r n hr hn
    cases r with
    | nil => exact absurd rfl hr
    | cons i r => exact Prefix_ne_nil_of_WF r _ n i hwf hn
  · intro r n m hn hm e he
    obtain ⟨rest, hrest⟩ := (hkeys r n m hn hm).2 e he
    rw [hrest]
    rfl
  · intro r n m hn hm
    have hk := hkeys r n m hn hm
    refine ⟨hk.1, ?_⟩
    intro i j ei ej hi hj hh
    obtain ⟨ki, ci⟩ := ei
    obtain ⟨kj, cj⟩ := ej
    obtain ⟨ri, hri⟩ := hk.2 (ki, ci) (List.get?_mem hi)
    obtain ⟨rj, hrj⟩ := hk.2 (kj, cj) (List.get?_mem hj)
    simp only at hri hrj hh
    rw [hri, hrj] at hh
    simp only [List.head?_cons, Option.some.injEq] at hh
    subst hh
    exact ArrayMap.index_unique m ki ci cj i j hk.1 hi hj

end Structure

/-! ## The three ways `Put` changes a node -/

section PutSteps

variable {K P : Type} [DecidableEq K] [Inhabited P]

theorem get?_append_cons {α : Type} (cm : List α) (a : α) (xs : List α) :
    (cm ++ a :: xs).get? cm.length = some a := by
  simp only [List.get?_eq_getElem?]
  rw [List.getElem?_append_right (Nat.le_refl _)]
  simp

/-- C14. Divergent split: when `Put(path, v)` reaches a node `tr` and the
length `l` of the longest common leading run of `tr.Prefix` and `path` is less
than both lengths, then `tr.Prefix[l]` differs from `path[l]`, and after the
call `tr` has the first `l` elements of its old `Prefix`, `PayloadSet` false,
and exactly two children in this order: `node1` with `Prefix` the old
`tr.Prefix[l:]` and the old children, `Payload` and `PayloadSet`, keyed by the
old `tr.Prefix[l]`; then `node2` with `Prefix` `path[l:]`, no children,
`Payload` `v` and `PayloadSet` true, keyed by `path[l]`.  The second insertion
into the fresh mapping does not overwrite the first. -/
theorem Put_divergent_split (pre : List K) (ch : Option (ArrayMap K (TrieNode K P)))
    (pl : P) (ps : Bool) (path : List K) (v : P)
    (h1 : commonLen pre path < pre.length) (h2 : commonLen pre path < path.length) :
    ∃ a b, pre.get? (commonLen pre path) = some a ∧
      path.get? (commonLen pre path) = some b ∧ a ≠ b ∧
      ArrayMap.Put
          (ArrayMap.Put ArrayMap.New a
            (TrieNode.mk (pre.drop (commonLen pre path)) ch pl ps))
          b (TrieNode.mk (path.drop (commonLen pre path)) none v true) =
        [(a, TrieNode.mk (pre.drop (commonLen pre path)) ch pl ps),
         (b, TrieNode.mk (path.drop (commonLen pre path)) none v true)] ∧
      Put (TrieNode.mk pre ch pl ps) path v =
        (TrieNode.mk (pre.take (commonLen pre path))
          (some [(a, TrieNode.mk (pre.drop (commonLen pre path)) ch pl ps),
                 (b, TrieNode.mk (path.drop (commonLen pre path)) none v true)])
          default false, none) := by
  rcases prefix_cases pre path with
    ⟨rest, rfl⟩ | ⟨a, pre', rfl⟩ | ⟨cm, a, pre', b, rest, rfl, rfl, hab⟩
  · rw [commonLen_whole] at h1
    omega
  · rw [commonLen_inside] at h2
    omega
  · have hput : ArrayMap.Put (ArrayMap.Put (ArrayMap.New : ArrayMap K (TrieNode K P)) a
        (TrieNode.mk (a :: pre') ch pl ps)) b (TrieNode.mk (b :: rest) none v true) =
        [(a, TrieNode.mk (a :: pre') ch pl ps), (b, TrieNode.mk (b :: rest) none v true)] := by
      simp [ArrayMap.Put, ArrayMap.New, hab]
    refine ⟨a, b, ?_, ?_, hab, ?_, ?_⟩
    · rw [commonLen_part cm a b pre' rest hab]
      exact get?_append_cons cm a pre'
    · rw [commonLen_part cm a b pre' rest hab]
      exact get?_append_cons cm b rest
    · rw [commonLen_part cm a b pre' rest hab]
      simp only [List.drop_left]
      exact hput
    · rw [Put_part cm a b pre' rest hab, commonLen_part cm a b pre' rest hab]
      simp only [List.drop_left, List.take_left, newLeaf]
      rw [hput]

/-- C15. Split when the new key ends inside a node's `Prefix`: when
`Put(path, v)` reaches a node `tr` and `path` is a proper leading part of
`tr.Prefix` (`l = len(path) < len(tr.Prefix)`), then after the call `tr` has
`Prefix` `path`, `Payload` `v`, `PayloadSet` true, and exactly one child,
keyed by the old `tr.Prefix[l]`, whose `Prefix` is the old `tr.Prefix[l:]` and
whose children, `Payload` and `PayloadSet` are those `tr` had before. -/
theorem Put_split_inside (pre : List K) (ch : Option (ArrayMap K (TrieNode K P)))
    (pl : P) (ps : Bool) (path : List K) (v : P)
    (hl : commonLen pre path = path.length) (hlt : path.length < pre.length) :
    ∃ a, pre.get? path.length = some a ∧
      Put (TrieNode.mk pre ch pl ps) path v =
        (TrieNode.mk path
          (some [(a, TrieNode.mk (pre.drop path.length) ch pl ps)]) v true, none) := by
  rcases prefix_cases pre path with
    ⟨rest, rfl⟩ | ⟨a, pre', rfl⟩ | ⟨cm, a, pre', b, rest, rfl, rfl, hab⟩
  · simp only [List.length_append] at hlt
    omega
  · refine ⟨a, get?_append_cons path a pre', ?_⟩
    rw [Put_inside]
    simp only [List.drop_left]
    rfl
  · rw [commonLen_part cm a b pre' rest hab] at hl
    simp only [List.length_append, List.length_cons] at hl
    omega

/-- C16. Adding a new leaf: when `Put(path, v)` reaches a node `tr` whose
whole `Prefix` is a leading part of `path`, the remainder
`rest = path[len(tr.Prefix):]` is non-empty and `tr` has no child keyed by
`rest[0]`, then after the call the `Prefix`, `Payload`, `PayloadSet` and all
previous children of `tr`, in their order, are unchanged, and exactly one
child has been added, last in iteration order, keyed by `rest[0]`, with
`Prefix` `rest`, no children, `Payload` `v` and `PayloadSet` true. -/
theorem Put_adds_leaf (pre : List K) (ch : Option (ArrayMap K (TrieNode K P)))
    (pl : P) (ps : Bool) (path : List K) (v : P) (k : K) (rest : List K)
    (hl : commonLen pre path = pre.length) (hrest : path.drop pre.length = k :: rest)
    (hget : ∀ m, ch = some m → ArrayMap.Get m k = none) :
    Put (TrieNode.mk pre ch pl ps) path v =
      (TrieNode.mk pre
        (some (ch.getD [] ++ [(k, TrieNode.mk (k :: rest) none v true)])) pl ps, none) := by
  have hg : ArrayMap.Get (ch.getD ArrayMap.New) k = none := by
    cases ch with
    | none => exact ArrayMap.Get_New k
    | some m => exact hget m rfl
  rcases prefix_cases pre path with
    ⟨rest', rfl⟩ | ⟨a, pre', rfl⟩ | ⟨cm, a, pre', b, rest', rfl, rfl, hab⟩
  · simp only [List.drop_left] at hrest
    subst hrest
    rw [Put_below]
    simp only [hg, ArrayMap.Put_of_Get_none _ _ _ hg, newLeaf]
    rfl
  · rw [commonLen_inside] at hl
    simp only [List.length_append, List.length_cons] at hl
    omega
  · rw [commonLen_part cm a b pre' rest' hab] at hl
    simp only [List.length_append, List.length_cons] at hl
    omega

end PutSteps

/-! ## Path compression -/

section Compression

variable {K P : Type}

/-- The number of children of a node: the length of its child mapping, zero
when the mapping is absent. -/
def numChildren (n : TrieNode K P) : Nat :=
  match n.Children with
  | none => 0
  | some m => ArrayMap.Len m

/-- The invariant on a node below the root and on all nodes under it: a node
with `PayloadSet` false has at least two children. -/
inductive Compressed : TrieNode K P → Prop
  | mk (pre : List K) (ch : Option (ArrayMap K (TrieNode K P))) (pl : P) (ps : Bool)
      (hbranch : ps = false → ∃ m, ch = some m ∧ 2 ≤ m.length)
      (hch : ∀ m, ch = some m → ∀ e ∈ m, Compressed e.2) :
      Compressed (TrieNode.mk pre ch pl ps)

/-- The invariant on a root: every child satisfies `Compressed`. -/
def CompressedBelow (t : TrieNode K P) : Prop :=
  ∀ m, t.Children = some m → ∀ e ∈ m, Compressed e.2

theorem Compressed.branch {pre : List K} {ch : Option (ArrayMap K (TrieNode K P))} {pl : P}
    {ps : Bool} (h : Compressed (TrieNode.mk pre ch pl ps)) :
    ps = false → ∃ m, ch = some m ∧ 2 ≤ m.length := by
  cases h with
  | mk _ _ _ _ hbranch hch => exact hbranch

theorem Compressed.children {t : TrieNode K P} (h : Compressed t) : CompressedBelow t := by
  cases h with
  | mk pre ch pl ps hbranch hch => exact hch

theorem Compressed_leaf (pre : List K) (pl : P) :
    Compressed (TrieNode.mk pre none pl true : TrieNode K P) :=
  Compressed.mk pre none pl true (fun h => by cases h) (fun m h => by cases h)

theorem Compressed_nodeAt (r : List Nat) :
    ∀ (t n : TrieNode K P) (i : Nat), CompressedBelow t → nodeAt t (i :: r) = some n →
      Compressed n := by
  induction r with
  | nil =>
    intro t n i hc h
    obtain ⟨pre, ch, pl, ps⟩ := t
    simp only [nodeAt] at h
    cases hci : childAt (TrieNode.mk pre ch pl ps) i with
    | none => simp [hci] at h
    | some c =>
      simp only [hci, Option.some.injEq] at h
      subst h
      obtain ⟨m, k, hm, hi⟩ := (childAt_eq_some pre ch pl ps i c).1 hci
      exact hc m (by simp [Children, hm]) (k, c) (List.get?_mem hi)
  | cons j r ih =>
    intro t n i hc h
    obtain ⟨pre, ch, pl, ps⟩ := t
    rw [nodeAt] at h
    cases hci : childAt (TrieNode.mk pre ch pl ps) i with
    | none => simp [hci] at h
    | some c =>
      simp only [hci] at h
      obtain ⟨m, k, hm, hi⟩ := (childAt_eq_some pre ch pl ps i c).1 hci
      have hcc : Compressed c := hc m (by simp [Children, hm]) (k, c) (List.get?_mem hi)
      exact ih c n j hcc.children h

theorem ArrayMap.length_update {V : Type} [DecidableEq K] (m : ArrayMap K V) (k : K) (v : V) :
    (ArrayMap.update m k v).length = m.length := by
  have := congrArg List.length (ArrayMap.keys_update m k v)
  simpa using this

variable [DecidableEq K] [Inhabited P]

/-- The children of a node after `Put` with a path that goes on below it satisfy
`Compressed` when the children before did and `Put` keeps `Compressed` on each. -/
theorem CompressedBelow_Put_below (pre : List K) (ch : Option (ArrayMap K (TrieNode K P)))
    (pl : P) (ps : Bool) (k0 : K) (rest0 : List K) (v : P)
    (hc : CompressedBelow (TrieNode.mk pre ch pl ps))
    (ih : ∀ m, ch = some m → ∀ e ∈ m, Compressed e.2 →
      ∀ (k : List K) (v : P), Compressed (Put e.2 k v).1) :
    CompressedBelow (Put (TrieNode.mk pre ch pl ps) (pre ++ k0 :: rest0) v).1 ∧
    numChildren (TrieNode.mk pre ch pl ps) ≤
      numChildren (Put (TrieNode.mk pre ch pl ps) (pre ++ k0 :: rest0) v).1 ∧
    (Put (TrieNode.mk pre ch pl ps) (pre ++ k0 :: rest0) v).1.PayloadSet = ps := by
  rw [Put_below]
  cases hg : ArrayMap.Get (ch.getD ArrayMap.New) k0 with
  | none =>
    simp only
    rw [ArrayMap.Put_of_Get_none _ _ _ hg]
    refine ⟨?_, ?_, rfl⟩
    · intro m hm e he
      simp only [Children, Option.some.injEq] at hm
      subst hm
      rcases List.mem_append.1 he with he | he
      · cases ch with
        | none => simp [ArrayMap.New] at he
        | some m' => exact hc m' rfl e he
      · simp only [List.mem_singleton] at he
        subst he
        exact Compressed_leaf _ _
    · cases ch with
      | none => simp [numChildren, Children]
      | some m' => simp [numChildren, Children, ArrayMap.Len]
  | some c =>
    cases ch with
    | none => simp [ArrayMap.Get_New] at hg
    | some m' =>
      simp only [Option.getD_some] at hg ⊢
      have hmem := ArrayMap.Get_mem m' k0 c hg
      refine ⟨?_, ?_, rfl⟩
      · intro m hm e he
        simp only [Children, Option.some.injEq] at hm
        subst hm
        rcases ArrayMap.mem_update m' k0 _ e he with he | he
        · exact hc m' rfl e he
        · subst he
          exact ih m' rfl (k0, c) hmem (hc m' rfl (k0, c) hmem) (k0 :: rest0) v
      · simp [numChildren, Children, ArrayMap.Len, ArrayMap.length_update]

/-- The method `Put` keeps `Compressed`. -/
theorem Compressed_Put (t : TrieNode K P) :
    Compressed t → ∀ (k : List K) (v : P), Compressed (Put t k v).1 := by
  induction t using TrieNode.induct with
  | step pre ch pl ps ih =>
    intro hc k v
    rcases prefix_cases pre k with
      ⟨rest, rfl⟩ | ⟨a, pre', rfl⟩ | ⟨cm, a, pre', b, rest, rfl, rfl, hab⟩
    · cases rest with
      | nil =>
        rw [List.append_nil, Put_exact]
        exact Compressed.mk pre ch v true (fun h => by cases h) hc.children
      | cons k0 rest0 =>
        obtain ⟨h1, h2, h3⟩ := CompressedBelow_Put_below pre ch pl ps k0 rest0 v hc.children ih
        cases hp : (Put (TrieNode.mk pre ch pl ps) (pre ++ k0 :: rest0) v).1 with
        | mk pre2 ch2 pl2 ps2 =>
          rw [hp] at h1 h2 h3
          simp only [PayloadSet] at h3
          subst h3
          refine Compressed.mk pre2 ch2 pl2 ps2 ?_ h1
          intro hps
          obtain ⟨m, hm, hlen⟩ := hc.branch hps
          subst hm
          simp only [numChildren, Children, ArrayMap.Len] at h2
          cases ch2 with
          | none => simp only at h2; omega
          | some m2 => exact ⟨m2, rfl, by simp only at h2; omega⟩
    · rw [Put_inside]
      refine Compressed.mk _ _ _ _ (fun h => by cases h) ?_
      intro m hm e he
      cases hm
      simp only [ArrayMap.Put, ArrayMap.New, List.mem_singleton] at he
      subst he
      exact Compressed.mk _ _ _ _ hc.branch hc.children
    · rw [Put_part cm a b pre' rest hab]
      have hput : ArrayMap.Put (ArrayMap.Put (ArrayMap.New : ArrayMap K (TrieNode K P)) a
          (TrieNode.mk (a :: pre') ch pl ps)) b (newLeaf (b :: rest) v) =
          [(a, TrieNode.mk (a :: pre') ch pl ps), (b, newLeaf (b :: rest) v)] := by
        simp [ArrayMap.Put, ArrayMap.New, hab]
      rw [hput]
      refine Compressed.mk _ _ _ _ (fun _ => ⟨_, rfl, by simp⟩) ?_
      intro m hm e he
      cases hm
      simp only [List.mem_cons, List.mem_singleton, List.not_mem_nil, or_false] at he
      rcases he with he | he
      · subst he; exact Compressed.mk _ _ _ _ hc.branch hc.children
      · subst he; exact Compressed_leaf _ _

/-- On a node with an empty `Prefix`, `Put` keeps `CompressedBelow`. -/
theorem CompressedBelow_Put (t : TrieNode K P) (hpre : t.Prefix = [])
    (hc : CompressedBelow t) (k : List K) (v : P) : CompressedBelow (Put t k v).1 := by
  obtain ⟨pre, ch, pl, ps⟩ := t
  simp only [Prefix] at hpre
  subst hpre
  cases k with
  | nil =>
    rw [Put_exact]
    exact hc
  | cons k0 rest0 =>
    have h := CompressedBelow_Put_below [] ch pl ps k0 rest0 v hc
      (fun m _ e _ he k v => Compressed_Put e.2 he k v)
    simp only [List.nil_append] at h
    exact h.1

theorem CompressedBelow_putAll (ops : List (List K × P)) :
    CompressedBelow (putAll ops) := by
  induction ops using List.reverseRecOn with
  | nil => intro m hm; cases hm
  | append_singleton ops op ih =>
    obtain ⟨k, v⟩ := op
    rw [putAll_snoc]
    exact CompressedBelow_Put _ (Prefix_putAll ops) ih k v

/-- C17. Path compression invariant: in every trie obtained from
`NewTrieRoot()` by a finite sequence of `Put` calls on the root, every node
other than the root whose `PayloadSet` is false has at least two children; so
such a node is never a leaf and never has a single child, and every leaf
other than the root has `PayloadSet` true. -/
theorem Put_keeps_compression (ops : List (List K × P)) :
    (∀ r n, r ≠ [] → nodeAt (putAll ops) r = some n → n.PayloadSet = false →
      2 ≤ numChildren n) ∧
    (∀ r n, r ≠ [] → nodeAt (putAll ops) r = some n → numChildren n = 0 →
      n.PayloadSet = true) := by
  have hmain : ∀ r n, r ≠ [] → nodeAt (putAll ops) r = some n → n.PayloadSet = false →
      2 ≤ numChildren n := by
    intro r n hr hn hps
    cases r with
    | nil => exact absurd rfl hr
    | cons i r =>
      have hc := Compressed_nodeAt r _ n i (CompressedBelow_putAll ops) hn
      obtain ⟨pre, ch, pl, ps⟩ := n
      simp only [PayloadSet] at hps
      obtain ⟨m, hm, hlen⟩ := hc.branch hps
      subst hm
      exact hlen
  refine ⟨hmain, ?_⟩
  intro r n hr hn h0
  cases hps : n.PayloadSet with
  | true => rfl
  | false =>
    have := hmain r n hr hn hps
    omega

end Compression

/-! ## Traverse and Lookup -/

section Agreement

variable {K P : Type}

/-- The key reconstructed from one callback invocation, as the tests do it: the
concatenation of the slices of `prefix` followed by the `Prefix` of the last
node of `path`. -/
def reportedKey (c : Call K P) : List K :=
  c.1.flatten ++
    (match c.2.getLast? with
      | some n => n.Prefix
      | none => [])

theorem reportedKey_route (t n : TrieNode K P) (r : List Nat) (h : nodeAt t r = some n) :
    fullKey t r =
      some (reportedKey (((nodesAlong t r).dropLast).map Prefix, nodesAlong t r)) := by
  rw [fullKey_nodesAlong r t n h]
  simp only [reportedKey, getLast_nodesAlong r t n h]

variable [DecidableEq K] [Inhabited P]

/-- C18. Traverse and Lookup agree: in every trie obtained from
`NewTrieRoot()` by `Put` calls, the keys reconstructed from the callback
invocations of `Traverse` on the root contain no key twice, and a key `k` is
reported with visited node `n` if and only if `Lookup(k)` returns `n`. -/
theorem Traverse_agrees_with_Lookup (ops : List (List K × P)) :
    ((Traverse (putAll ops)).map reportedKey).Nodup ∧
    ∀ k n, (∃ c ∈ Traverse (putAll ops), reportedKey c = k ∧ c.2.getLast? = some n) ↔
      Lookup (putAll ops) k = some n := by
  have hwf := WF_putAll ops
  constructor
  · rw [Traverse_eq, List.map_map]
    apply List.Nodup.map_on
    · intro r₁ h₁ r₂ h₂ heq
      simp only [List.mem_filter] at h₁ h₂
      cases hn₁ : nodeAt (putAll ops) r₁ with
      | none => simp [payloadSetAt, hn₁] at h₁
      | some n₁ =>
        cases hn₂ : nodeAt (putAll ops) r₂ with
        | none => simp [payloadSetAt, hn₂] at h₂
        | some n₂ =>
          have hk₁ := reportedKey_route _ n₁ r₁ hn₁
          have hk₂ := reportedKey_route _ n₂ r₂ hn₂
          simp only [Function.comp, callAt, List.nil_append] at heq
          rw [heq] at hk₁
          exact route_unique r₁ _ r₂ _ hwf hk₁ hk₂
    · exact (nodup_preorder _).filter _
  · intro k n
    constructor
    · rintro ⟨c, hc, hk, hlast⟩
      obtain ⟨r, n', hn, hps, rfl⟩ := (mem_Traverse _ c).1 hc
      have hl := getLast_nodesAlong r _ n' hn
      simp only at hlast
      rw [hl] at hlast
      cases hlast
      have hfk := reportedKey_route _ n r hn
      rw [hk] at hfk
      exact route_Lookup r _ k n hwf hn hps hfk
    · intro hl
      obtain ⟨r, hn, hfk⟩ := Lookup_route _ k n hl
      have hps := Lookup_PayloadSet _ k n hl
      refine ⟨(((nodesAlong (putAll ops) r).dropLast).map Prefix, nodesAlong (putAll ops) r),
        (mem_Traverse _ _).2 ⟨r, n, hn, hps, rfl⟩, ?_, getLast_nodesAlong r _ n hn⟩
      have := reportedKey_route _ n r hn
      rw [hfk] at this
      exact (Option.some.inj this).symm

end Agreement

/-! ## The steps of `Put` at concrete nodes -/

section StepScenario

/-- C14 at a concrete input: `Put("abd", 2)` on a node with `Prefix` "abc". -/
theorem Put_divergent_split_witness :
    commonLen "abc".toList "abd".toList < "abc".toList.length ∧
    commonLen "abc".toList "abd".toList < "abd".toList.length ∧
    ∃ a b, "abc".toList.get? (commonLen "abc".toList "abd".toList) = some a ∧
      "abd".toList.get? (commonLen "abc".toList "abd".toList) = some b ∧ a ≠ b ∧
      ArrayMap.Put
          (ArrayMap.Put ArrayMap.New a
            (TrieNode.mk ("abc".toList.drop (commonLen "abc".toList "abd".toList))
              none (1 : Nat) true))
          b (TrieNode.mk ("abd".toList.drop (commonLen "abc".toList "abd".toList))
              none 2 true) =
        [(a, TrieNode.mk ("abc".toList.drop (commonLen "abc".toList "abd".toList))
              none 1 true),
         (b, TrieNode.mk ("abd".toList.drop (commonLen "abc".toList "abd".toList))
              none 2 true)] ∧
      Put (TrieNode.mk "abc".toList none 1 true) "abd".toList 2 =
        (TrieNode.mk ("abc".toList.take (commonLen "abc".toList "abd".toList))
          (some
            [(a, TrieNode.mk ("abc".toList.drop (commonLen "abc".toList "abd".toList))
                none 1 true),
             (b, TrieNode.mk ("abd".toList.drop (commonLen "abc".toList "abd".toList))
                none 2 true)])
          default false, none) :=
  ⟨by decide, by decide,
    Put_divergent_split "abc".toList none 1 true "abd".toList 2 (by decide) (by decide)⟩

/-- C15 at a concrete input: `Put("ab", 2)` on a node with `Prefix` "abc". -/
theorem Put_split_inside_witness :
    commonLen "abc".toList "ab".toList = "ab".toList.length ∧
    "ab".toList.length < "abc".toList.length ∧
    ∃ a, "abc".toList.get? "ab".toList.length = some a ∧
      Put (TrieNode.mk "abc".toList none (1 : Nat) true) "ab".toList 2 =
        (TrieNode.mk "ab".toList
          (some [(a, TrieNode.mk ("abc".toList.drop "ab".toList.length) none 1 true)])
          2 true, none) :=
  ⟨by decide, by decide,
    Put_split_inside "abc".toList none 1 true "ab".toList 2 (by decide) (by decide)⟩

/-- C16 at a concrete input: `Put("abd", 2)` on a node with `Prefix` "ab" whose
only child is keyed by `c`. -/
theorem Put_adds_leaf_witness :
    commonLen "ab".toList "abd".toList = "ab".toList.length ∧
    "abd".toList.drop "ab".toList.length = 'd' :: [] ∧
    (∀ m, some [('c', TrieNode.mk "c".toList none (1 : Nat) true)] = some m →
      ArrayMap.Get m 'd' = none) ∧
    Put (TrieNode.mk "ab".toList (some [('c', TrieNode.mk "c".toList none 1 true)]) 0 false)
        "abd".toList 2 =
      (TrieNode.mk "ab".toList
        (some ((some [('c', TrieNode.mk "c".toList none 1 true)]).getD [] ++
          [('d', TrieNode.mk ('d' :: []) none 2 true)])) 0 false, none) :=
  ⟨by decide, by decide, fun m hm => by cases hm; rfl,
    Put_adds_leaf "ab".toList (some [('c', TrieNode.mk "c".toList none 1 true)]) 0 false
      "abd".toList 2 'd' [] (by decide) (by decide) (fun m hm => by cases hm; rfl)⟩

end StepScenario

end Prefixtrie
